import Mathlib

/-!
Verification development for the Lumina compiler back end
(`lir/mono.rs`, `lir/ssa.rs`, `backend/cranelift/mod.rs`).

The monomorphization engine is embedded as a fuel-indexed state
transformer over an explicit `MonoState`; the SSA builder as a state
machine on `Blocks`; the entry-point synthesis as abstract
instruction/event lists.  Machine integers are modelled as `Nat`
(`u32::MAX` appears explicitly as the placeholder sentinel).  Rust
panics are modelled as `Except.error .panic`; running out of fuel as
`Except.error .fuel` (the Rust recursion has no fuel bound; every
theorem below is stated about runs that return `.ok`, which coincide
with terminating Rust runs).
-/

namespace LuminaLir

/-- Module-qualified key, `M<T>` in `lumina_key`. -/
structure M (α : Type) where
  module : Nat
  value : α
deriving DecidableEq

/-- Builds `M` from a module and a value, `module.m(k)` in the source. -/
def M.map {α β : Type} (x : M α) (f : α → β) : M β := ⟨x.module, f x.value⟩

/-- The `key::TypeKind` enum: record, sum or trait key. -/
inductive TypeKind where
  | record (k : Nat)
  | sum (k : Nat)
  | trait (k : Nat)
deriving DecidableEq

/-- `IntSize` from `lumina_typesystem`: signedness plus bit width. -/
structure IntSize where
  signed : Bool
  bits : Nat
deriving DecidableEq

/-- `IntSize::new` from the source. -/
def IntSize.new (signed : Bool) (bits : Nat) : IntSize := ⟨signed, bits⟩

/-- `pub const TAG_SIZE: IntSize = IntSize::new(false, 32);` (mono.rs line 14). -/
def TAG_SIZE : IntSize := IntSize.new false 32

/-- `u32::MAX`, the placeholder size sentinel. -/
def u32Max : Nat := 4294967295

/-- The `MonoType` enum from mono.rs. -/
inductive MonoType where
  | int (sz : IntSize)
  | sumDataCast (largest : Nat)
  | pointer (t : MonoType)
  | fnPointer (params : List MonoType) (ret : MonoType)
  | float
  | unreachable
  | monomorphised (k : Nat)

mutual

/-- Decidable equality for `MonoType` (the automatic derivation does not
support the nesting through `List`). -/
def MonoType.decEq : (a b : MonoType) → Decidable (a = b)
  | .int a, .int b =>
      if h : a = b then .isTrue (by rw [h]) else .isFalse (fun hc => h (MonoType.int.inj hc))
  | .sumDataCast a, .sumDataCast b =>
      if h : a = b then .isTrue (by rw [h])
      else .isFalse (fun hc => h (MonoType.sumDataCast.inj hc))
  | .pointer a, .pointer b =>
      match MonoType.decEq a b with
      | .isTrue h => .isTrue (by rw [h])
      | .isFalse h => .isFalse (fun hc => h (MonoType.pointer.inj hc))
  | .fnPointer ps r, .fnPointer qs s =>
      match MonoType.decEqList ps qs, MonoType.decEq r s with
      | .isTrue h1, .isTrue h2 => .isTrue (by rw [h1, h2])
      | .isFalse h1, _ => .isFalse (fun hc => h1 (MonoType.fnPointer.inj hc).1)
      | _, .isFalse h2 => .isFalse (fun hc => h2 (MonoType.fnPointer.inj hc).2)
  | .float, .float => .isTrue rfl
  | .unreachable, .unreachable => .isTrue rfl
  | .monomorphised a, .monomorphised b =>
      if h : a = b then .isTrue (by rw [h])
      else .isFalse (fun hc => h (MonoType.monomorphised.inj hc))
  | .int _, .sumDataCast _ => .isFalse nofun
  | .int _, .pointer _ => .isFalse nofun
  | .int _, .fnPointer _ _ => .isFalse nofun
  | .int _, .float => .isFalse nofun
  | .int _, .unreachable => .isFalse nofun
  | .int _, .monomorphised _ => .isFalse nofun
  | .sumDataCast _, .int _ => .isFalse nofun
  | .sumDataCast _, .pointer _ => .isFalse nofun
  | .sumDataCast _, .fnPointer _ _ => .isFalse nofun
  | .sumDataCast _, .float => .isFalse nofun
  | .sumDataCast _, .unreachable => .isFalse nofun
  | .sumDataCast _, .monomorphised _ => .isFalse nofun
  | .pointer _, .int _ => .isFalse nofun
  | .pointer _, .sumDataCast _ => .isFalse nofun
  | .pointer _, .fnPointer _ _ => .isFalse nofun
  | .pointer _, .float => .isFalse nofun
  | .pointer _, .unreachable => .isFalse nofun
  | .pointer _, .monomorphised _ => .isFalse nofun
  | .fnPointer _ _, .int _ => .isFalse nofun
  | .fnPointer _ _, .sumDataCast _ => .isFalse nofun
  | .fnPointer _ _, .pointer _ => .isFalse nofun
  | .fnPointer _ _, .float => .isFalse nofun
  | .fnPointer _ _, .unreachable => .isFalse nofun
  | .fnPointer _ _, .monomorphised _ => .isFalse nofun
  | .float, .int _ => .isFalse nofun
  | .float, .sumDataCast _ => .isFalse nofun
  | .float, .pointer _ => .isFalse nofun
  | .float, .fnPointer _ _ => .isFalse nofun
  | .float, .unreachable => .isFalse nofun
  | .float, .monomorphised _ => .isFalse nofun
  | .unreachable, .int _ => .isFalse nofun
  | .unreachable, .sumDataCast _ => .isFalse nofun
  | .unreachable, .pointer _ => .isFalse nofun
  | .unreachable, .fnPointer _ _ => .isFalse nofun
  | .unreachable, .float => .isFalse nofun
  | .unreachable, .monomorphised _ => .isFalse nofun
  | .monomorphised _, .int _ => .isFalse nofun
  | .monomorphised _, .sumDataCast _ => .isFalse nofun
  | .monomorphised _, .pointer _ => .isFalse nofun
  | .monomorphised _, .fnPointer _ _ => .isFalse nofun
  | .monomorphised _, .float => .isFalse nofun
  | .monomorphised _, .unreachable => .isFalse nofun

/-- Decidable equality for lists of `MonoType`. -/
def MonoType.decEqList : (as bs : List MonoType) → Decidable (as = bs)
  | [], [] => .isTrue rfl
  | [], _ :: _ => .isFalse nofun
  | _ :: _, [] => .isFalse nofun
  | a :: as, b :: bs =>
      match MonoType.decEq a b, MonoType.decEqList as bs with
      | .isTrue h1, .isTrue h2 => .isTrue (by rw [h1, h2])
      | .isFalse h1, _ => .isFalse (fun hc => h1 (List.cons.inj hc).1)
      | _, .isFalse h2 => .isFalse (fun hc => h2 (List.cons.inj hc).2)

end

instance : DecidableEq MonoType := MonoType.decEq

/-- `MonoType::u8_pointer()`: pointer to an unsigned byte. -/
def MonoType.u8_pointer : MonoType := .pointer (.int (IntSize.new false 8))

/-- The `Repr` enum from mono.rs (layout representation tag). -/
inductive LayoutRepr where
  | transparent
  | lumina
deriving DecidableEq

/-- `MonomorphisedRecord`: one entry of the layout table.  `fields` is the
`Map<key::RecordField, MonoType>` read off in insertion order; `autoboxed`
is the `HashSet<key::RecordField>` as a list of field indices. -/
structure MonomorphisedRecord where
  size : Nat
  repr : LayoutRepr
  fields : List MonoType
  autoboxed : List Nat
  original : Option (M TypeKind)
deriving DecidableEq

/-- `MonomorphisedRecord::placeholder()`. -/
def MonomorphisedRecord.placeholder : MonomorphisedRecord :=
  { size := u32Max, repr := .lumina, fields := [], autoboxed := [], original := none }

/-- Engine failure: `panic` models a Rust panic / failed assertion, `fuel`
models exhaustion of the artificial fuel bound (which the Rust code does
not have; terminating Rust runs are exactly the `.ok` runs for large fuel). -/
inductive EErr where
  | panic
  | fuel
deriving DecidableEq

/-- State of `MonomorphisedTypes`: the `(TypeKind, args) -> key` memo map
`resolve`, the structural `tuples` memo map, and the layout arena `types`
(`Records`, a `Map<MonoTypeKey, MonomorphisedRecord>` indexed by position).
The `closure` trait key lives in `Env` below.  Both hash maps are modelled
as association lists; entries are only ever inserted for absent keys, so
lookup order is irrelevant. -/
structure MonoState where
  resolve : List ((M TypeKind × List MonoType) × Nat)
  tuples : List (List MonoType × Nat)
  types : List MonomorphisedRecord
deriving DecidableEq

/-- First-match association-list lookup (`HashMap::get`). -/
def alookup {κ β : Type} [DecidableEq κ] (k : κ) : List (κ × β) → Option β
  | [] => none
  | (k₁, v) :: rest => if k = k₁ then some v else alookup k rest

mutual

/-- `Records::size_of_ty` (mono.rs 235-246): bit size of a `MonoType`.
All pointer-like cases are the constant 64. -/
def size_of_ty : Nat → List MonomorphisedRecord → MonoType → Bool → Except EErr Nat
  | 0, _, _, _ => .error .fuel
  | f + 1, types, ty, sum_are_ptrs =>
    match ty with
    | .sumDataCast largest => if sum_are_ptrs then .ok 64 else .ok largest
    | .pointer _ => .ok 64
    | .int sz => .ok sz.bits
    | .float => .ok 64
    | .fnPointer _ _ => .ok 64
    | .unreachable => .ok 0
    | .monomorphised key => size_of_defined f types key

/-- `Records::size_of_defined` (mono.rs 248-264): a still-placeholder
(size `u32::MAX`) record is sized as a pointer — except for sums, which
are sized tag-plus-payload. -/
def size_of_defined : Nat → List MonomorphisedRecord → Nat → Except EErr Nat
  | 0, _, _ => .error .fuel
  | f + 1, types, key =>
    match types[key]? with
    | none => .error .panic
    | some r =>
      if r.size = u32Max then
        match r.original with
        | some ⟨_, TypeKind.sum _⟩ =>
          match r.fields[1]? with
          | none => .error .panic
          | some field =>
            match size_of_ty f types field false with
            | .ok w => .ok (TAG_SIZE.bits + w)
            | .error e => .error e
        | _ => size_of_ty f types MonoType.u8_pointer true
      else .ok r.size

end

/-- `Records::size_of`. -/
def size_of (f : Nat) (types : List MonomorphisedRecord) (ty : MonoType) : Except EErr Nat :=
  size_of_ty f types ty true

/-- `Records::size_of_without_ptr_sum`. -/
def size_of_without_ptr_sum (f : Nat) (types : List MonomorphisedRecord) (ty : MonoType) :
    Except EErr Nat :=
  size_of_ty f types ty false

/-- The `.map(|ty| size_of(ty)).sum()` pattern used by `construct`,
`get_or_make_tuple` and the sum payload computation. -/
def sum_sizes : Nat → List MonomorphisedRecord → List MonoType → Except EErr Nat
  | _, _, [] => .ok 0
  | f, types, t :: ts =>
    match size_of f types t, sum_sizes f types ts with
    | .ok a, .ok b => .ok (a + b)
    | .error e, _ => .error e
    | .ok _, .error e => .error e

mutual

/-- `Records::field_is_recursive` (mono.rs 216-225): does `ty` reach a
record whose `original` equals `key`?  The recursion through the arena is
not structurally decreasing (it can diverge on cyclic arenas), hence the
fuel. -/
def field_is_recursive : Nat → List MonomorphisedRecord → M TypeKind → MonoType →
    Except EErr Bool
  | 0, _, _, _ => .error .fuel
  | f + 1, types, key, ty =>
    match ty with
    | .monomorphised mk =>
      match types[mk]? with
      | none => .error .panic
      | some r =>
        if r.original = some key then .ok true
        else any_field_recursive f types key r.fields
    | _ => .ok false

/-- The `fields.values().any(...)` part of `field_is_recursive`. -/
def any_field_recursive : Nat → List MonomorphisedRecord → M TypeKind → List MonoType →
    Except EErr Bool
  | 0, _, _, _ => .error .fuel
  | _ + 1, _, _, [] => .ok false
  | f + 1, types, key, t :: ts =>
    match field_is_recursive f types key t with
    | .ok true => .ok true
    | .ok false => any_field_recursive f types key ts
    | .error e => .error e

end

/-- The `fields.iter().filter_map(|(field, ty)| field_is_recursive(key, ty)
.then_some(field))` collection in `Monomorphization::construct`; `i` is the
index of the first field in `ts`. -/
def autoboxed_fields : Nat → List MonomorphisedRecord → M TypeKind → Nat → List MonoType →
    Except EErr (List Nat)
  | 0, _, _, _, _ => .error .fuel
  | _ + 1, _, _, _, [] => .ok []
  | f + 1, types, key, i, t :: ts =>
    match field_is_recursive f types key t, autoboxed_fields f types key (i + 1) ts with
    | .ok true, .ok rest => .ok (i :: rest)
    | .ok false, .ok rest => .ok rest
    | .error e, _ => .error e
    | .ok _, .error e => .error e

/-- `Monomorphization::construct` (mono.rs 483-506): size is the plain sum
of the field sizes, autoboxed collects the fields flagged by
`field_is_recursive` against `original` (when there is an original). -/
def construct (f : Nat) (types : List MonomorphisedRecord) (original : Option (M TypeKind))
    (fields : List MonoType) (repr : LayoutRepr) : Except EErr MonomorphisedRecord :=
  let autoboxed : Except EErr (List Nat) :=
    match original with
    | some key => autoboxed_fields f types key 0 fields
    | none => .ok []
  match sum_sizes f types fields, autoboxed with
  | .ok size, .ok ab =>
    .ok { size := size, repr := repr, fields := fields, autoboxed := ab, original := original }
  | .error e, _ => .error e
  | .ok _, .error e => .error e

/-- The loop `for f in 0..field.0 { offset += size_of(fields[f]) }` of
`Records::field_offset`; indexing past the end of `fields` panics. -/
def field_offset_sum : Nat → List MonomorphisedRecord → List MonoType → Nat → Except EErr Nat
  | _, _, _, 0 => .ok 0
  | f, types, fields, i + 1 =>
    match field_offset_sum f types fields i, fields[i]? with
    | .ok acc, some ty =>
      match size_of f types ty with
      | .ok w => .ok (acc + w)
      | .error e => .error e
    | .error e, _ => .error e
    | .ok _, none => .error .panic

/-- `Records::field_offset` (mono.rs 266-286): panics outright whenever the
record has any autoboxed field, otherwise sums the sizes of the preceding
fields (same arm for both representations). -/
def field_offset (f : Nat) (types : List MonomorphisedRecord) (ty : Nat) (field : Nat) :
    Except EErr Nat :=
  match types[ty]? with
  | none => .error .panic
  | some r =>
    if r.autoboxed = [] then
      match r.repr with
      | .lumina => field_offset_sum f types r.fields field
      | .transparent => field_offset_sum f types r.fields field
    else .error .panic

/-- `Iterator::max` over a list of widths. -/
def list_max : List Nat → Option Nat
  | [] => none
  | x :: xs =>
    match list_max xs with
    | none => some x
    | some m => some (max x m)

/-- `MonomorphisedTypes::get_or_make_tuple` (mono.rs 334-351): structural
memoization keyed only by the element list. -/
def get_or_make_tuple (f : Nat) (s : MonoState) (elems : List MonoType) :
    Except EErr (Nat × MonoState) :=
  match alookup elems s.tuples with
  | some key => .ok (key, s)
  | none =>
    match sum_sizes f s.types elems with
    | .error e => .error e
    | .ok size =>
      let rcd : MonomorphisedRecord :=
        { size := size, repr := .lumina, autoboxed := [], fields := elems, original := none }
      let key := s.types.length
      .ok (key, { s with types := s.types ++ [rcd], tuples := (elems, key) :: s.tuples })

/-- `Monomorphization::trait_object_from_vtable` (mono.rs 671-683): patch
`dst` to the 2-field record `*u8 + vtable` of constant size `64 * 2`. -/
def trait_object_from_vtable (s : MonoState) (key : M Nat) (dst : Nat) (vtable : MonoType) :
    Except EErr MonoState :=
  match s.types[dst]? with
  | none => .error .panic
  | some _ =>
    let rdata : MonomorphisedRecord :=
      { size := 64 * 2, repr := .lumina,
        fields := [MonoType.u8_pointer, vtable], autoboxed := [],
        original := some ⟨key.module, TypeKind.trait key.value⟩ }
    .ok { s with types := s.types.set dst rdata }

/-- `Monomorphization::closure_object` (mono.rs 579-603): memo key is the
trait plus `ptypes ++ [ret]`; the dispatch pointer takes the receiver
`*u8` followed by the already-splatted `ptypes`. -/
def closure_object (s : MonoState) (trait_ : M Nat) (ptypes : List MonoType) (ret : MonoType) :
    Except EErr (Nat × MonoState) :=
  let params := ptypes ++ [ret]
  let key := ((⟨trait_.module, TypeKind.trait trait_.value⟩ : M TypeKind), params)
  match alookup key s.resolve with
  | some k => .ok (k, s)
  | none =>
    let reserved := s.types.length
    let s₁ : MonoState :=
      { s with types := s.types ++ [MonomorphisedRecord.placeholder],
               resolve := (key, reserved) :: s.resolve }
    let vtable := MonoType.fnPointer (MonoType.u8_pointer :: ptypes) ret
    match trait_object_from_vtable s₁ trait_ reserved vtable with
    | .ok s₂ => .ok (reserved, s₂)
    | .error e => .error e

/-- `GenericKind` from `lumina_typesystem` (the two kinds used here). -/
inductive GenericKind where
  | entity
  | parent
deriving DecidableEq

/-- A generic parameter: index plus kind. -/
structure Generic where
  key : Nat
  kind : GenericKind
deriving DecidableEq

/-- `Generic::new`. -/
def Generic.new (key : Nat) (kind : GenericKind) : Generic := ⟨key, kind⟩

/-- The `Container` head of a composite `Type`. -/
inductive Container where
  | fnPointerC
  | closureC
  | tuple
  | pointerC
  | stringC (key : M TypeKind)
  | listC (key : M TypeKind)
  | definedC (key : M TypeKind)

/-- The generic (weak) type language `Type = Ty<Static>` as consumed by
`Monomorphization::apply`; `simple` covers `Ty::Simple("f64" | "bool" |
"self" | ...)`. -/
inductive Ty where
  | container (c : Container) (params : List Ty)
  | generic (g : Generic)
  | int (sz : IntSize)
  | simple (name : String)

/-- `TypeMap` (mono.rs 403-408): generic-to-mono assignments plus the
monomorphised `self` type.  The `weak : GenericMapper<Static>` component is
omitted: it records weak types for `apply_weak` only and never influences
any monomorphised output or memo key. -/
structure TypeMap where
  generics : List (Generic × MonoType)
  self_ : Option MonoType

/-- `TypeMap::new`. -/
def TypeMap.new : TypeMap := ⟨[], none⟩

/-- `TypeMap::extend` / `extend_no_weak`: assign `Generic::new(i, kind)` to
the i-th element. -/
def extend_generics (kind : GenericKind) (tys : List MonoType) : List (Generic × MonoType) :=
  tys.enum.map (fun p => (Generic.new p.1 kind, p.2))

/-- The read-only inputs of `Monomorphization` (mono.rs 410-425): field
tables for records, variant tables for sums, method and function-typing
tables for traits, and the well-known `Closure` trait key. -/
structure Env where
  field_types : M Nat → List Ty
  variant_types : M Nat → List (List Ty)
  methods : M Nat → List Nat
  funcs : M Nat → List Ty × Ty
  closure : M Nat

/-- Per-variant field-size sums (the `params.iter().map(size_of).sum()`
inside the `largest` computation of `Monomorphization::sum`). -/
def variant_sums : Nat → List MonomorphisedRecord → List (List MonoType) → Except EErr (List Nat)
  | _, _, [] => .ok []
  | f, types, v :: vs =>
    match sum_sizes f types v, variant_sums f types vs with
    | .ok a, .ok b => .ok (a :: b)
    | .error e, _ => .error e
    | .ok _, .error e => .error e

/-- `Monomorphization::get_or_monomorphise` (mono.rs 454-481), with the
argument monomorphization (`new_type_map_by`) already performed by the
caller: look up `(kind, mparams)`; on a miss, reserve a placeholder key,
memoize it, set `self` in the type map, run the body, assert the slot is
still a placeholder, and patch it with the produced record. -/
def get_or_monomorphise (kind : M TypeKind) (mparams : List MonoType) (tmap : TypeMap)
    (s : MonoState) (or_ : TypeMap → MonoState → Except EErr (MonomorphisedRecord × MonoState)) :
    Except EErr (Nat × MonoState) :=
  match alookup (kind, mparams) s.resolve with
  | some mk => .ok (mk, s)
  | none =>
    let mk := s.types.length
    let s₁ : MonoState :=
      { s with types := s.types ++ [MonomorphisedRecord.placeholder],
               resolve := ((kind, mparams), mk) :: s.resolve }
    let tmap₁ : TypeMap := { tmap with self_ := some (.monomorphised mk) }
    match or_ tmap₁ s₁ with
    | .error e => .error e
    | .ok (rcd, s₂) =>
      match s₂.types[mk]? with
      | none => .error .panic
      | some cur =>
        if cur.size = u32Max then .ok (mk, { s₂ with types := s₂.types.set mk rcd })
        else .error .panic

mutual

/-- `Monomorphization::apply` (mono.rs 685-741): monomorphise one weak
type.  Every recursive call passes `f` after matching `f + 1`; this only
means larger fuel may be needed than the Rust recursion depth, and does
not change any `.ok` result. -/
def apply : Nat → Env → TypeMap → MonoState → Ty → Except EErr (MonoType × MonoState)
  | 0, _, _, _, _ => .error .fuel
  | f + 1, env, tmap, s, ty =>
    match ty with
    | .container .fnPointerC params =>
      match applys f env tmap s params with
      | .error e => .error e
      | .ok (mparams, s₁) =>
        match mparams.getLast? with
        | none => .error .panic
        | some returns => .ok (.fnPointer mparams.dropLast returns, s₁)
    | .container .closureC params =>
      match params.getLast? with
      | none => .error .panic
      | some returns_w =>
        match applys f env tmap s params.dropLast with
        | .error e => .error e
        | .ok (mparams, s₁) =>
          match apply f env tmap s₁ returns_w with
          | .error e => .error e
          | .ok (ret, s₂) =>
            match closure_object s₂ env.closure mparams ret with
            | .error e => .error e
            | .ok (object, s₃) => .ok (.monomorphised object, s₃)
    | .container .tuple params =>
      match applys f env tmap s params with
      | .error e => .error e
      | .ok (elems, s₁) =>
        match get_or_make_tuple f s₁ elems with
        | .error e => .error e
        | .ok (k, s₂) => .ok (.monomorphised k, s₂)
    | .container .pointerC params =>
      match params[0]? with
      | none => .error .panic
      | some p0 =>
        match apply f env tmap s p0 with
        | .error e => .error e
        | .ok (inner, s₁) => .ok (.pointer inner, s₁)
    | .container (.stringC key) params => apply_defined f env tmap s key params
    | .container (.listC key) params => apply_defined f env tmap s key params
    | .container (.definedC key) params => apply_defined f env tmap s key params
    | .generic g =>
      match alookup g tmap.generics with
      | some t => .ok (t, s)
      | none => .error .panic
    | .int sz => .ok (.int sz, s)
    | .simple n =>
      if n = "f64" then .ok (.float, s)
      else if n = "bool" then .ok (.int (IntSize.new false 8), s)
      else if n = "self" then
        match tmap.self_ with
        | some t => .ok (t, s)
        | none => .error .panic
      else .error .panic

/-- The dispatch shared by `Monomorphization::defined` (mono.rs 517-526)
and the `Container::String | List | Defined` arm of `apply`. -/
def apply_defined : Nat → Env → TypeMap → MonoState → M TypeKind → List Ty →
    Except EErr (MonoType × MonoState)
  | 0, _, _, _, _, _ => .error .fuel
  | f + 1, env, tmap, s, key, params =>
    match key.value with
    | .record rk =>
      match record f env tmap s ⟨key.module, rk⟩ params with
      | .error e => .error e
      | .ok (mk, s₁) => .ok (.monomorphised mk, s₁)
    | .sum sk =>
      match sum f env tmap s ⟨key.module, sk⟩ params with
      | .error e => .error e
      | .ok (mk, s₁) => .ok (.monomorphised mk, s₁)
    | .trait tk =>
      match applys f env tmap s params with
      | .error e => .error e
      | .ok (mparams, s₁) =>
        match trait_object f env s₁ ⟨key.module, tk⟩ mparams with
        | .error e => .error e
        | .ok (mk, s₂) => .ok (.monomorphised mk, s₂)

/-- `Monomorphization::applys`: monomorphise a list, threading the state. -/
def applys : Nat → Env → TypeMap → MonoState → List Ty → Except EErr (List MonoType × MonoState)
  | 0, _, _, _, _ => .error .fuel
  | _ + 1, _, _, s, [] => .ok ([], s)
  | f + 1, env, tmap, s, t :: ts =>
    match apply f env tmap s t with
    | .error e => .error e
    | .ok (m, s₁) =>
      match applys f env tmap s₁ ts with
      | .error e => .error e
      | .ok (ms, s₂) => .ok (m :: ms, s₂)

/-- The per-variant `applys` of `Monomorphization::sum`. -/
def apply_variants : Nat → Env → TypeMap → MonoState → List (List Ty) →
    Except EErr (List (List MonoType) × MonoState)
  | 0, _, _, _, _ => .error .fuel
  | _ + 1, _, _, s, [] => .ok ([], s)
  | f + 1, env, tmap, s, v :: vs =>
    match applys f env tmap s v with
    | .error e => .error e
    | .ok (mv, s₁) =>
      match apply_variants f env tmap s₁ vs with
      | .error e => .error e
      | .ok (mvs, s₂) => .ok (mv :: mvs, s₂)

/-- The `method_to_fnptr` closure of `Monomorphization::trait_object`
(mono.rs 639-649): monomorphise one trait method's typing into a function
pointer under the trait-object type map. -/
def method_to_fnptr : Nat → Env → TypeMap → MonoState → Nat → Nat →
    Except EErr (MonoType × MonoState)
  | 0, _, _, _, _, _ => .error .fuel
  | f + 1, env, tmap, s, module, func =>
    let typing := env.funcs ⟨module, func⟩
    match applys f env tmap s typing.1 with
    | .error e => .error e
    | .ok (ptypes, s₁) =>
      match apply f env tmap s₁ typing.2 with
      | .error e => .error e
      | .ok (ret, s₂) => .ok (.fnPointer ptypes ret, s₂)

/-- The `methods.values().map(|func| method_to_fnptr(*func))` collection of
`Monomorphization::trait_object`. -/
def methods_to_fnptrs : Nat → Env → TypeMap → MonoState → Nat → List Nat →
    Except EErr (List MonoType × MonoState)
  | 0, _, _, _, _, _ => .error .fuel
  | _ + 1, _, _, s, _, [] => .ok ([], s)
  | f + 1, env, tmap, s, module, m :: ms =>
    match method_to_fnptr f env tmap s module m with
    | .error e => .error e
    | .ok (p, s₁) =>
      match methods_to_fnptrs f env tmap s₁ module ms with
      | .error e => .error e
      | .ok (ps, s₂) => .ok (p :: ps, s₂)

/-- `Monomorphization::record` (mono.rs 528-535): monomorphise the
arguments (`new_type_map_by`), then `get_or_monomorphise` with the body
that substitutes the record's field types. -/
def record : Nat → Env → TypeMap → MonoState → M Nat → List Ty →
    Except EErr (Nat × MonoState)
  | 0, _, _, _, _, _ => .error .fuel
  | f + 1, env, tmap, s, key, params =>
    match applys f env tmap s params with
    | .error e => .error e
    | .ok (mparams, s₁) =>
      let tmap₁ : TypeMap := { generics := extend_generics .entity mparams, self_ := none }
      get_or_monomorphise ⟨key.module, .record key.value⟩ mparams tmap₁ s₁
        (fun tmap₂ s₂ =>
          match applys f env tmap₂ s₂ (env.field_types key) with
          | .error e => .error e
          | .ok (fields, s₃) =>
            match construct f s₃.types (some ⟨key.module, TypeKind.record key.value⟩)
                fields .lumina with
            | .error e => .error e
            | .ok rcd => .ok (rcd, s₃))

/-- `Monomorphization::sum` (mono.rs 545-573): the payload is
`SumDataCast` sized by the largest per-variant field-size sum, next to an
`Int(TAG_SIZE)` tag. -/
def sum : Nat → Env → TypeMap → MonoState → M Nat → List Ty → Except EErr (Nat × MonoState)
  | 0, _, _, _, _, _ => .error .fuel
  | f + 1, env, tmap, s, key, params =>
    match applys f env tmap s params with
    | .error e => .error e
    | .ok (mparams, s₁) =>
      let tmap₁ : TypeMap := { generics := extend_generics .entity mparams, self_ := none }
      get_or_monomorphise ⟨key.module, .sum key.value⟩ mparams tmap₁ s₁
        (fun tmap₂ s₂ =>
          match apply_variants f env tmap₂ s₂ (env.variant_types key) with
          | .error e => .error e
          | .ok (variants, s₃) =>
            match variant_sums f s₃.types variants with
            | .error e => .error e
            | .ok sums =>
              match list_max sums with
              | none => .error .panic
              | some largest =>
                match construct f s₃.types (some ⟨key.module, TypeKind.sum key.value⟩)
                    [MonoType.int TAG_SIZE, MonoType.sumDataCast largest] .lumina with
                | .error e => .error e
                | .ok rcd => .ok (rcd, s₃))

/-- `Monomorphization::trait_object` (mono.rs 605-668): reserve the key
before building the vtable; for the `Closure` trait the parameter tuple is
splatted into the dispatch function pointer's parameter list. -/
def trait_object : Nat → Env → MonoState → M Nat → List MonoType →
    Except EErr (Nat × MonoState)
  | 0, _, _, _, _ => .error .fuel
  | f + 1, env, s, trait_, mparams =>
    let key := ((⟨trait_.module, TypeKind.trait trait_.value⟩ : M TypeKind), mparams)
    match alookup key s.resolve with
    | some k => .ok (k, s)
    | none =>
      let reserved := s.types.length
      let s₁ : MonoState :=
        { s with types := s.types ++ [MonomorphisedRecord.placeholder],
                 resolve := (key, reserved) :: s.resolve }
      let vtable_res : Except EErr (MonoType × MonoState) :=
        if trait_ = env.closure then
          match mparams with
          | [p, ret] =>
            match p with
            | .monomorphised param_tuple =>
              match s₁.types[param_tuple]? with
              | none => .error .panic
              | some r => .ok (.fnPointer (MonoType.u8_pointer :: r.fields) ret, s₁)
            | _ => .error .panic
          | _ => .error .panic
        else
          let tmap₀ : TypeMap :=
            { generics := extend_generics .parent mparams, self_ := some MonoType.u8_pointer }
          match env.methods trait_ with
          | [func] => method_to_fnptr f env tmap₀ s₁ trait_.module func
          | ms =>
            match methods_to_fnptrs f env tmap₀ s₁ trait_.module ms with
            | .error e => .error e
            | .ok (fnptrs, s₂) =>
              match get_or_make_tuple f s₂ fnptrs with
              | .error e => .error e
              | .ok (vt, s₃) => .ok (.pointer (.monomorphised vt), s₃)
      match vtable_res with
      | .error e => .error e
      | .ok (vtable, s₂) =>
        match trait_object_from_vtable s₂ trait_ reserved vtable with
        | .ok s₃ => .ok (reserved, s₃)
        | .error e => .error e

end

/-- The unit tuple record created by `MonomorphisedTypes::new`. -/
def unit_record : MonomorphisedRecord :=
  { size := 0, repr := .lumina, fields := [], autoboxed := [], original := none }

/-- The state right after `MonomorphisedTypes::new`: the empty tuple is
interned at key 0 (`UNIT`). -/
def init_state : MonoState :=
  { resolve := [], tuples := [([], 0)], types := [unit_record] }

/-! ## The SSA builder (`lir/ssa.rs`) -/

/-- `std::cmp::Ordering` as used by the comparison entries. -/
inductive CmpOrdering where
  | lt
  | eq
  | gt
deriving DecidableEq

/-- The `Value` enum of ssa.rs.  The `f64` payload of `Value::Float` is
carried as its raw bit pattern: ssa.rs only stores and prints floats,
never computes with them. -/
inductive Value where
  | blockParam (p : Nat)
  | readOnly (ro : M Nat)
  | funcPtr (f : Nat)
  | v (id : Nat)
  | int (n : Int) (bitsize : Nat)
  | uint (n : Nat) (bitsize : Nat)
  | floatV (bits : Nat)
deriving DecidableEq

/-- The `Entry` enum of ssa.rs: the operation that produced an SSA value. -/
inductive Entry where
  | callStatic (f : Nat) (params : List Value)
  | callExtern (key : M Nat) (params : List Value)
  | callValue (v : Value) (params : List Value)
  | copy (v : Value)
  | construct (params : List Value)
  | refStaticVal (val : M Nat)
  | field (of : Value) (key : Nat) (field : Nat)
  | sumField (of : Value) (offset : Nat)
  | intAdd (a b : Value)
  | intSub (a b : Value)
  | intMul (a b : Value)
  | intDiv (a b : Value)
  | intCmpInclusive (a : Value) (ord : CmpOrdering) (b : Value) (bitsize : Nat)
  | reduce (v : Value)
  | extendSigned (v : Value)
  | extendUnsigned (v : Value)
  | bitAnd (a b : Value)
  | alloc (size : Nat)
  | dealloc (ptr : Value)
  | writePtr (ptr : Value) (value : Value)
  | deref (v : Value)

/-- The `ControlFlow` enum of ssa.rs: a block terminator. -/
inductive ControlFlow where
  | jmpFunc (f : Nat) (params : List Value)
  | jmpBlock (b : Nat) (isCon : Bool) (params : List Value)
  | unreachableCF
  | ret (v : Value)
  | select (v : Value) (onTrue : Nat × List Value) (onFalse : Nat × List Value)
  | jmpTable (v : Value) (params : List Value) (blocks : List Nat)

/-- The `!= ControlFlow::Unreachable` comparison used by `assign` and
`set_tail`. -/
def ControlFlow.isUnreachable : ControlFlow → Bool
  | .unreachableCF => true
  | _ => false

/-- `BasicBlock` (ssa.rs 31-45): parameter types, the half-open range of
owned SSA value ids (`offset`), and the terminator (`Unreachable` until
sealed). -/
structure BasicBlock where
  parameters : List MonoType
  offset : Option (Nat × Nat)
  tail : ControlFlow

/-- `BasicBlock::new`. -/
def BasicBlock.new (parameters : List MonoType) : BasicBlock :=
  { parameters := parameters, offset := none, tail := .unreachableCF }

/-- `Blocks` (ssa.rs 47-52): the per-function builder state. -/
structure Blocks where
  current : Nat
  blocks : List BasicBlock
  ventries : List Entry
  vtypes : List MonoType

/-- `Blocks::placeholder`. -/
def Blocks.placeholder : Blocks :=
  { current := 0, blocks := [], ventries := [], vtypes := [] }

/-- `Blocks::new`: one entry block holding the function parameters. -/
def Blocks.new (parameters : List MonoType) : Blocks :=
  { current := 0, blocks := [BasicBlock.new parameters], ventries := [], vtypes := [] }

/-- `Blocks::new_block` (the `debug_assert_ne!(self.blocks.len(), 0)`
failure is `none`). -/
def Blocks.new_block (b : Blocks) : Option (Nat × Blocks) :=
  if b.blocks.length = 0 then none
  else some (b.blocks.length, { b with blocks := b.blocks ++ [BasicBlock.new []] })

/-- `Blocks::add_block_param`. -/
def Blocks.add_block_param (b : Blocks) (block : Nat) (ty : MonoType) : Option (Nat × Blocks) :=
  match b.blocks[block]? with
  | none => none
  | some bb =>
    some (bb.parameters.length,
      { b with blocks := b.blocks.set block { bb with parameters := bb.parameters ++ [ty] } })

/-- `Blocks::switch_to_block`. -/
def Blocks.switch_to_block (b : Blocks) (block : Nat) : Blocks :=
  { b with current := block }

/-- `Blocks::assign` (ssa.rs 96-129): push the entry and its type, give it
the next global id `v`, extend the current block's owned range, panic if
the block is sealed, and assert that `v` precedes the start of the next
block's range when that block is already populated. -/
def Blocks.assign (b : Blocks) (entry : Entry) (ty : MonoType) : Option (Nat × Blocks) :=
  let block := b.current
  let v := b.ventries.length
  if b.vtypes.length ≠ v then none
  else
    match b.blocks[block]? with
    | none => none
    | some bb =>
      let offset₁ : Option (Nat × Nat) :=
        match bb.offset with
        | none => some (v, v + 1)
        | some (st, en) => some (st, en + 1)
      if bb.tail.isUnreachable = false then none
      else
        let okNext : Bool :=
          match b.blocks[block + 1]? with
          | some nb =>
            match nb.offset with
            | some (st, _) => decide (v < st)
            | none => true
          | none => true
        match okNext with
        | true =>
          some (v, { b with ventries := b.ventries ++ [entry], vtypes := b.vtypes ++ [ty],
                            blocks := b.blocks.set block { bb with offset := offset₁ } })
        | false => none

/-- `Blocks::entries`: the ids owned by a block, as the list
`[start, ..., end-1]` of its recorded range. -/
def Blocks.entries (b : Blocks) (block : Nat) : List Nat :=
  match b.blocks[block]? with
  | some bb =>
    match bb.offset with
    | some (st, en) => List.range' st (en - st)
    | none => []
  | none => []

/-- `Blocks::set_tail` (ssa.rs 162-171): sets the terminator; panics if
one is already assigned. -/
def Blocks.set_tail (b : Blocks) (flow : ControlFlow) : Option Blocks :=
  match b.blocks[b.current]? with
  | none => none
  | some bb =>
    if bb.tail.isUnreachable then
      some { b with blocks := b.blocks.set b.current { bb with tail := flow } }
    else none

/-- `Blocks::construct`: one of the public value-producing wrappers, all of
which delegate to `assign`. -/
def Blocks.construct_value (b : Blocks) (params : List Value) (ty : MonoType) :
    Option (Nat × Blocks) :=
  b.assign (.construct params) ty

/-- `Blocks::copy`. -/
def Blocks.copy_value (b : Blocks) (value : Value) (ty : MonoType) : Option (Nat × Blocks) :=
  b.assign (.copy value) ty

/-- `Blocks::return_`. -/
def Blocks.return_value (b : Blocks) (value : Value) : Option Blocks :=
  b.set_tail (.ret value)

/-- One builder step: the public mutating operations of `Blocks`. -/
inductive SsaOp where
  | newBlock
  | addBlockParam (block : Nat) (ty : MonoType)
  | switchToBlock (block : Nat)
  | assignOp (e : Entry) (ty : MonoType)
  | setTailOp (flow : ControlFlow)

/-- Run one builder step (`none` = panic). -/
def run_op (b : Blocks) : SsaOp → Option Blocks
  | .newBlock => (b.new_block).map (fun p => p.2)
  | .addBlockParam blk ty => (b.add_block_param blk ty).map (fun p => p.2)
  | .switchToBlock blk => some (b.switch_to_block blk)
  | .assignOp e ty => (b.assign e ty).map (fun p => p.2)
  | .setTailOp fl => b.set_tail fl

/-- Run a sequence of builder steps. -/
def run_ops (b : Blocks) : List SsaOp → Option Blocks
  | [] => some b
  | op :: ops =>
    match run_op b op with
    | none => none
    | some b₁ => run_ops b₁ ops

/-- Is any block after the current one already populated?  The standard
construction discipline keeps this false whenever a value is appended. -/
def populated_above (b : Blocks) : Bool :=
  (b.blocks.drop (b.current + 1)).any (fun bb => bb.offset.isSome)

/-- Run one builder step, additionally checking the in-order population
discipline on every `assign`. -/
def run_op_in_order (b : Blocks) : SsaOp → Option Blocks
  | .assignOp e ty => if populated_above b then none else (b.assign e ty).map (fun p => p.2)
  | op => run_op b op

/-- Run a sequence of builder steps under the in-order discipline. -/
def run_ops_in_order (b : Blocks) : List SsaOp → Option Blocks
  | [] => some b
  | op :: ops =>
    match run_op_in_order b op with
    | none => none
    | some b₁ => run_ops_in_order b₁ ops

/-- The SSA range property claimed by the specification: for blocks
`i < j`, every id owned by block `i` is strictly below every id owned by
block `j`. -/
def ssa_range_property (st : Blocks) : Prop :=
  ∀ i j a b, i < j → a ∈ st.entries i → b ∈ st.entries j → a < b

/-- The recorded id range of one block (`None` when the block does not
exist or is not yet populated). -/
def block_range (b : Blocks) (i : Nat) : Option (Nat × Nat) :=
  match b.blocks[i]? with
  | some bb => bb.offset
  | none => none

/-- The builder invariant maintained by in-order construction: every
recorded range is nonempty and bounded by the id counter, ranges of
earlier blocks end no later than later ranges start, and a populated block
with nothing populated above it ends exactly at the id counter. -/
def Inv4 (b : Blocks) : Prop :=
  (∀ i st en, block_range b i = some (st, en) →
     st < en ∧ en ≤ b.ventries.length) ∧
  (∀ i j sti eni stj enj, i < j → block_range b i = some (sti, eni) →
     block_range b j = some (stj, enj) → eni ≤ stj) ∧
  (∀ i st en, block_range b i = some (st, en) →
     (∀ j, i < j → block_range b j = none) →
     en = b.ventries.length)

/-! ## Entry-point synthesis and emission (`backend/cranelift/mod.rs`) -/

/-- `LinuxPlatform` from the target descriptor. -/
inductive LinuxPlatform where
  | gnu
  | musl
  | syscallP
deriving DecidableEq

/-- Symbol linkage as used by the synthesized functions. -/
inductive Linkage where
  | exportL
  | hiddenL
  | importL
deriving DecidableEq

/-- The cranelift value types appearing in the synthesized signatures:
`types::I32`, `types::I64` and the isa pointer type. -/
inductive ClType where
  | i32
  | i64
  | ptr
deriving DecidableEq

/-- The functions referenced from a synthesized body. -/
inductive FuncRef where
  | valInits
  | sysInit
  | luminaMain
  | sysCall
deriving DecidableEq

/-- An argument of a synthesized instruction: an entry-block parameter or
the result of a previous instruction of the same body. -/
inductive ClArg where
  | argc
  | argv
  | result (i : Nat)
deriving DecidableEq

/-- The instructions emitted by the entry-point synthesis. -/
inductive ClInst where
  | call (f : FuncRef) (args : List ClArg)
  | iconst (ty : ClType) (v : Int)
  | ret (args : List ClArg)
deriving DecidableEq

/-- A synthesized function as declared in the object module. -/
structure EntryFunc where
  name : String
  linkage : Linkage
  sigParams : List ClType
  sigReturns : List ClType
  body : List ClInst
deriving DecidableEq

/-- The emission-relevant events around a synthesized body.  `abortPanic`
is the event a fatal abort would produce; the synthesis functions below
never emit it. -/
inductive EmitEvent where
  | verifyFn
  | logError
  | defineFn
  | abortPanic
deriving DecidableEq

/-- The `verify_function` / `error!` / `define_function` tail shared by
`declare_val_run_and_store` (mod.rs 219-227) and both arms of
`declare_entrypoint` (mod.rs 276-286, 318-327): a verifier failure is
logged with `error!` and execution falls through to `define_function`.
`verifies` is the outcome of the external cranelift verifier. -/
def verify_then_define (verifies : Bool) : List EmitEvent :=
  [.verifyFn] ++ (if verifies then [] else [.logError]) ++ [.defineFn]

/-- `Context::declare_val_run_and_store` events: verify the synthesized
value-initializer-runner, log on failure, then define it. -/
def declare_val_run_and_store_events (verifies : Bool) : List EmitEvent :=
  verify_then_define verifies

/-- `Context::declare_entrypoint` (mod.rs 229-330): the synthesized entry
function per platform, plus its emission events.  Hosted platforms (gnu,
musl) declare an exported `main(argc: i32, argv: ptr) -> i64` whose body
calls the value-initializer runner, then the system initializer with the
raw `(argc, argv)` block parameters, then the program main, and returns
the constant exit code 0.  The syscall platform declares `_start` and ends
in a direct exit syscall. -/
def declare_entrypoint (sub : LinuxPlatform) (verifies : Bool) : EntryFunc × List EmitEvent :=
  match sub with
  | .gnu | .musl =>
    ({ name := "main", linkage := .exportL,
       sigParams := [.i32, .ptr], sigReturns := [.i64],
       body := [.call .valInits [], .call .sysInit [.argc, .argv], .call .luminaMain [],
                .iconst .i64 0, .ret [.result 3]] },
     verify_then_define verifies)
  | .syscallP =>
    ({ name := "_start", linkage := .exportL,
       sigParams := [], sigReturns := [],
       body := [.call .valInits [], .call .luminaMain [],
                .iconst .i64 0, .iconst .i64 60,
                .call .sysCall [.result 2, .result 2, .result 2, .result 2, .result 2, .result 3],
                .ret []] },
     verify_then_define verifies)

/-! ## Invariants of the monomorphization state -/

/-- The layout keys handed out through the nominal memo map. -/
def resolve_vals (s : MonoState) : List Nat := s.resolve.map (fun p => p.2)

/-- The layout keys handed out through the structural tuple memo map. -/
def tuple_vals (s : MonoState) : List Nat := s.tuples.map (fun p => p.2)

/-- All memoized layout keys of a state. -/
def state_vals (s : MonoState) : List Nat := resolve_vals s ++ tuple_vals s

/-- A record that is either still the placeholder or has the 2-field
tag-plus-payload shape produced by `Monomorphization::sum`. -/
def record_sum_shape (r : MonomorphisedRecord) : Bool :=
  decide (r = MonomorphisedRecord.placeholder) ||
  (match r.fields with
   | [MonoType.int sz, MonoType.sumDataCast _] => decide (sz = TAG_SIZE)
   | _ => false)

/-- Every nominal memo entry for a sum kind points at a record of sum
shape (or a still-unpatched placeholder). -/
def entry_sum_ok (types : List MonomorphisedRecord)
    (p : (M TypeKind × List MonoType) × Nat) : Bool :=
  match p.1.1.value with
  | TypeKind.sum _ =>
    (match types[p.2]? with
     | some r => record_sum_shape r
     | none => false)
  | _ => true

/-- The state invariant of the engine: all memoized keys are distinct
(across both memo maps), all point into the arena, and sum entries point
at sum-shaped records. -/
def EngineInv (s : MonoState) : Prop :=
  (state_vals s).Nodup ∧ (∀ v ∈ state_vals s, v < s.types.length) ∧
  (∀ p ∈ s.resolve, entry_sum_ok s.types p = true)

/-- State extension: the engine only ever adds memo entries and arena
slots (patching a slot in place); all existing lookups keep their value. -/
def Extends (s t : MonoState) : Prop :=
  (∀ k v, alookup k s.resolve = some v → alookup k t.resolve = some v) ∧
  (∀ k v, alookup k s.tuples = some v → alookup k t.tuples = some v) ∧
  s.types.length ≤ t.types.length

/-- For a non-sum memo kind this is trivial; for a sum kind it demands the
patched record have the tag-plus-payload shape. -/
def sum_kind_ok (kind : M TypeKind) (r : MonomorphisedRecord) : Prop :=
  match kind.value with
  | TypeKind.sum _ => record_sum_shape r = true
  | _ => True

/-! ## Concrete inputs used by the claims -/

/-- A directly self-referential record: nominal identity `(0, record 0)`,
fields `[i64, Node]` — the canonical list-node shape of the
recursive-layout claim. -/
def node_env : Env :=
  { field_types := fun _ =>
      [Ty.int (IntSize.new true 64), Ty.container (.definedC ⟨0, .record 0⟩) []]
    variant_types := fun _ => []
    methods := fun _ => []
    funcs := fun _ => ([], Ty.int (IntSize.new true 64))
    closure := ⟨0, 99⟩ }

/-- The record layout actually produced for the self-referential node:
finite size (64 + pointer-sized 64), but an empty autoboxed set. -/
def node_layout : MonomorphisedRecord :=
  { size := 128, repr := .lumina,
    fields := [.int (IntSize.new true 64), .monomorphised 1],
    autoboxed := [], original := some ⟨0, TypeKind.record 0⟩ }

/-- The well-known `Closure` trait key used in the closure claims. -/
def closure_trait : M Nat := ⟨0, 0⟩

/-- An environment whose only role is to carry the `Closure` trait key. -/
def closure_env : Env :=
  { field_types := fun _ => []
    variant_types := fun _ => []
    methods := fun _ => []
    funcs := fun _ => ([], Ty.int (IntSize.new true 32))
    closure := closure_trait }

/-- A sum with variants of field-size sums 0, 32 and 96 bits (the payload
sizing scenario of the specification). -/
def sum_env : Env :=
  { field_types := fun _ => []
    variant_types := fun _ =>
      [[], [Ty.int (IntSize.new true 32)],
       [Ty.int (IntSize.new true 32), Ty.int (IntSize.new true 64)]]
    methods := fun _ => []
    funcs := fun _ => ([], Ty.int (IntSize.new true 64))
    closure := ⟨0, 99⟩ }

/-- A single-method trait (method typing `() -> i64`) used to exercise the
trait-object entry point. -/
def one_method_trait_env : Env :=
  { field_types := fun _ => []
    variant_types := fun _ => []
    methods := fun _ => [0]
    funcs := fun _ => ([], Ty.int (IntSize.new true 64))
    closure := ⟨0, 99⟩ }

/-- The op sequence refuting the global SSA range claim: populate block 2,
then go back and populate block 0 — block 1 is empty, so the builder's
adjacent-block assertion does not fire. -/
def cex_ops : List SsaOp :=
  [.newBlock, .newBlock, .switchToBlock 2, .assignOp (.construct []) .float,
   .switchToBlock 0, .assignOp (.construct []) .float]

/-- First concrete trait-object instantiation used by the memoization
witness: trait `(0, 1)` with no arguments. -/
def c1_run1 : Except EErr (Nat × MonoState) :=
  trait_object 10 one_method_trait_env init_state ⟨0, 1⟩ []

/-- The state after the first instantiation. -/
def c1_s1 : MonoState :=
  match c1_run1 with
  | .ok p => p.2
  | .error _ => init_state

/-- Second instantiation: a different trait identity `(0, 2)`. -/
def c1_run2 : Except EErr (Nat × MonoState) :=
  trait_object 10 one_method_trait_env c1_s1 ⟨0, 2⟩ []

/-- The state after the second instantiation. -/
def c1_s2 : MonoState :=
  match c1_run2 with
  | .ok p => p.2
  | .error _ => init_state

/-- The concrete sum instantiation of the payload-sizing scenario. -/
def c3_run : Except EErr (Nat × MonoState) :=
  sum 10 sum_env TypeMap.new init_state ⟨0, 0⟩ []

/-- The state after the concrete sum instantiation. -/
def c3_s : MonoState :=
  match c3_run with
  | .ok p => p.2
  | .error _ => init_state

/-- A record with one autoboxed field (the field-offset hazard input). -/
def c7_boxed : MonomorphisedRecord :=
  { size := 64, repr := .lumina, fields := [MonoType.float], autoboxed := [0],
    original := none }

/-- A plain two-field record with no autoboxed fields. -/
def c7_plain : MonomorphisedRecord :=
  { size := 128, repr := .lumina,
    fields := [MonoType.int (IntSize.new true 64), MonoType.float], autoboxed := [],
    original := none }

/-- Interning the closure's `(Int32, Float)` parameter tuple. -/
def c6_tuple_run : Except EErr (Nat × MonoState) :=
  get_or_make_tuple 5 init_state [MonoType.int (IntSize.new true 32), MonoType.float]

/-- The state holding that parameter tuple (at key 1). -/
def c6_s : MonoState :=
  match c6_tuple_run with
  | .ok p => p.2
  | .error _ => init_state

/-- The layout record interned for the `(Int32, Float)` parameter tuple. -/
def c6_tr : MonomorphisedRecord :=
  { size := 96, repr := .lumina,
    fields := [MonoType.int (IntSize.new true 32), MonoType.float], autoboxed := [],
    original := none }

/-- The closure trait object over that parameter tuple, returning `Int32`. -/
def c6_run : Except EErr (Nat × MonoState) :=
  trait_object 10 closure_env c6_s closure_trait
    [MonoType.monomorphised 1, MonoType.int (IntSize.new true 32)]

/-- The state after building the closure object. -/
def c6_s2 : MonoState :=
  match c6_run with
  | .ok p => p.2
  | .error _ => init_state

/-- Instantiating the self-referential node record. -/
def c2_run : Except EErr (Nat × MonoState) :=
  record 20 node_env TypeMap.new init_state ⟨0, 0⟩ []

/-- The state after instantiating the node record. -/
def c2_s : MonoState :=
  match c2_run with
  | .ok p => p.2
  | .error _ => init_state

/-- The successful fresh-block scenario: make a block, populate it with two
values, seal it once. -/
def c5_ops : List SsaOp :=
  [.newBlock, .switchToBlock 1, .assignOp (.construct []) .float,
   .assignOp (.copy (.v 0)) .float, .setTailOp (.ret (.v 1))]

/-- The builder state after the successful scenario (block 1 sealed). -/
def c5_sealed : Blocks :=
  match run_ops (Blocks.new []) c5_ops with
  | some b => b
  | none => Blocks.placeholder

/-- The builder state after the out-of-order population scenario. -/
def c4_st : Blocks :=
  match run_ops (Blocks.new []) cex_ops with
  | some b => b
  | none => Blocks.placeholder

/-- A disciplined (in-order) build: populate block 0, then make and
populate block 1. -/
def c4_ok_ops : List SsaOp :=
  [.assignOp (.construct []) .float, .newBlock, .switchToBlock 1,
   .assignOp (.construct []) .float]

/-- The builder state after the disciplined build. -/
def c4_ok_st : Blocks :=
  match run_ops_in_order (Blocks.new []) c4_ok_ops with
  | some b => b
  | none => Blocks.placeholder

/-! ## Association-list lemmas -/

theorem alookup_mem {κ β : Type} [DecidableEq κ] {k : κ} {l : List (κ × β)} {v : β}
    (h : alookup k l = some v) : (k, v) ∈ l := by
  induction l with
  | nil => simp [alookup] at h
  | cons p rest ih =>
    cases p with
    | mk k₁ v₁ =>
      simp only [alookup] at h
      by_cases hk : k = k₁
      · rw [if_pos hk] at h
        cases h
        subst hk
        exact List.mem_cons_self _ _
      · rw [if_neg hk] at h
        exact List.mem_cons_of_mem _ (ih h)

theorem alookup_cons_ne {κ β : Type} [DecidableEq κ] {k k₁ : κ} {v₁ : β} {l : List (κ × β)}
    (h : k ≠ k₁) : alookup k ((k₁, v₁) :: l) = alookup k l := by
  simp [alookup, h]

theorem alookup_cons_self {κ β : Type} [DecidableEq κ] {k : κ} {v : β} {l : List (κ × β)} :
    alookup k ((k, v) :: l) = some v := by
  simp [alookup]

theorem alookup_insert_preserve {κ β : Type} [DecidableEq κ] {knew : κ} {vnew : β}
    {l : List (κ × β)} (habs : alookup knew l = none) {k : κ} {v : β}
    (h : alookup k l = some v) : alookup k ((knew, vnew) :: l) = some v := by
  have hne : k ≠ knew := by
    rintro rfl
    rw [habs] at h
    cases h
  rw [alookup_cons_ne hne]
  exact h

theorem alookup_inj_of_nodup {κ β : Type} [DecidableEq κ] {l : List (κ × β)}
    (hn : (l.map (fun p => p.2)).Nodup) {a b : κ} {v : β}
    (ha : alookup a l = some v) (hb : alookup b l = some v) : a = b := by
  induction l with
  | nil => cases ha
  | cons p rest ih =>
    cases p with
    | mk k₁ v₁ =>
      simp only [List.map_cons, List.nodup_cons] at hn
      obtain ⟨hv₁, hrest⟩ := hn
      simp only [alookup] at ha hb
      by_cases h1 : a = k₁ <;> by_cases h2 : b = k₁
      · rw [h1, h2]
      · rw [if_pos h1] at ha
        rw [if_neg h2] at hb
        cases ha
        exact absurd (List.mem_map_of_mem (fun p => p.2) (alookup_mem hb)) hv₁
      · rw [if_pos h2] at hb
        rw [if_neg h1] at ha
        cases hb
        exact absurd (List.mem_map_of_mem (fun p => p.2) (alookup_mem ha)) hv₁
      · rw [if_neg h1] at ha
        rw [if_neg h2] at hb
        exact ih hrest ha hb

theorem alookup_value_mem {κ β : Type} [DecidableEq κ] {k : κ} {l : List (κ × β)} {v : β}
    (h : alookup k l = some v) : v ∈ l.map (fun p => p.2) :=
  List.mem_map_of_mem (fun p => p.2) (alookup_mem h)

theorem mem_eq_of_nodup_map_snd {κ β : Type} {l : List (κ × β)}
    (hn : (l.map (fun p => p.2)).Nodup) {p q : κ × β}
    (hp : p ∈ l) (hq : q ∈ l) (h : p.2 = q.2) : p = q :=
  List.inj_on_of_nodup_map hn hp hq h

/-! ## Extension lemmas -/

theorem Extends.refl (s : MonoState) : Extends s s :=
  ⟨fun _ _ h => h, fun _ _ h => h, Nat.le_refl _⟩

theorem Extends.trans {s t u : MonoState} (h₁ : Extends s t) (h₂ : Extends t u) :
    Extends s u :=
  ⟨fun k v h => h₂.1 k v (h₁.1 k v h), fun k v h => h₂.2.1 k v (h₁.2.1 k v h),
   Nat.le_trans h₁.2.2 h₂.2.2⟩

theorem extends_reserve {s : MonoState} {kind : M TypeKind} {mparams : List MonoType}
    (hl : alookup (kind, mparams) s.resolve = none) :
    Extends s { s with types := s.types ++ [MonomorphisedRecord.placeholder],
                       resolve := ((kind, mparams), s.types.length) :: s.resolve } := by
  refine ⟨fun k v hh => alookup_insert_preserve hl hh, fun _ _ hh => hh, ?_⟩
  simp

theorem extends_set (s : MonoState) (mk : Nat) (rcd : MonomorphisedRecord) :
    Extends s { s with types := s.types.set mk rcd } := by
  refine ⟨fun _ _ hh => hh, fun _ _ hh => hh, ?_⟩
  simp

/-! ## State lemmas for the non-recursive engine operations -/

theorem get_or_make_tuple_extends {f : Nat} {s : MonoState} {elems : List MonoType}
    {k : Nat} {s' : MonoState} (h : get_or_make_tuple f s elems = .ok (k, s')) :
    Extends s s' := by
  unfold get_or_make_tuple at h
  cases hl : alookup elems s.tuples with
  | some key =>
    rw [hl] at h
    cases h
    exact Extends.refl s
  | none =>
    rw [hl] at h
    cases hs : sum_sizes f s.types elems with
    | error e => rw [hs] at h; cases h
    | ok size =>
      rw [hs] at h
      simp only at h
      cases h
      refine ⟨fun _ _ hh => hh, fun _ _ hh => alookup_insert_preserve hl hh, ?_⟩
      simp

theorem get_or_make_tuple_own_key {f : Nat} {s : MonoState} {elems : List MonoType}
    {k : Nat} {s' : MonoState} (h : get_or_make_tuple f s elems = .ok (k, s')) :
    alookup elems s'.tuples = some k := by
  unfold get_or_make_tuple at h
  cases hl : alookup elems s.tuples with
  | some key =>
    rw [hl] at h
    cases h
    exact hl
  | none =>
    rw [hl] at h
    cases hs : sum_sizes f s.types elems with
    | error e => rw [hs] at h; cases h
    | ok size =>
      rw [hs] at h
      simp only at h
      cases h
      exact alookup_cons_self

theorem get_or_make_tuple_stable {f g : Nat} {s : MonoState} {elems : List MonoType}
    {k : Nat} {s' t : MonoState} (h : get_or_make_tuple f s elems = .ok (k, s'))
    (hext : Extends s' t) : get_or_make_tuple g t elems = .ok (k, t) := by
  have hk : alookup elems t.tuples = some k := hext.2.1 _ _ (get_or_make_tuple_own_key h)
  unfold get_or_make_tuple
  rw [hk]

theorem trait_object_from_vtable_ok {s : MonoState} {key : M Nat} {dst : Nat}
    {vt : MonoType} {s' : MonoState} (h : trait_object_from_vtable s key dst vt = .ok s') :
    s' = { s with types := (s.types.set dst
      { size := 64 * 2, repr := .lumina, fields := [MonoType.u8_pointer, vt], autoboxed := [],
        original := some ⟨key.module, TypeKind.trait key.value⟩ }) } ∧ dst < s.types.length := by
  unfold trait_object_from_vtable at h
  cases hg : s.types[dst]? with
  | none => rw [hg] at h; cases h
  | some r =>
    rw [hg] at h
    simp only at h
    cases h
    exact ⟨rfl, (List.getElem?_eq_some.mp hg).1⟩

theorem closure_object_extends {s : MonoState} {trait_ : M Nat} {ptypes : List MonoType}
    {ret : MonoType} {k : Nat} {s' : MonoState}
    (h : closure_object s trait_ ptypes ret = .ok (k, s')) : Extends s s' := by
  unfold closure_object at h
  simp only at h
  split at h
  · cases h
    exact Extends.refl s
  · rename_i hl
    split at h
    · rename_i s₂ hv
      cases h
      obtain ⟨rfl, _⟩ := trait_object_from_vtable_ok hv
      exact Extends.trans (extends_reserve hl) (extends_set _ _ _)
    · cases h

theorem closure_object_own_key {s : MonoState} {trait_ : M Nat} {ptypes : List MonoType}
    {ret : MonoType} {k : Nat} {s' : MonoState}
    (h : closure_object s trait_ ptypes ret = .ok (k, s')) :
    alookup ((⟨trait_.module, TypeKind.trait trait_.value⟩ : M TypeKind),
      ptypes ++ [ret]) s'.resolve = some k := by
  unfold closure_object at h
  simp only at h
  split at h
  · rename_i k₀ hl
    cases h
    exact hl
  · rename_i hl
    split at h
    · rename_i s₂ hv
      cases h
      obtain ⟨rfl, _⟩ := trait_object_from_vtable_ok hv
      exact alookup_cons_self
    · cases h

theorem closure_object_stable {s : MonoState} {trait_ : M Nat} {ptypes : List MonoType}
    {ret : MonoType} {k : Nat} {s' t : MonoState}
    (h : closure_object s trait_ ptypes ret = .ok (k, s')) (hext : Extends s' t) :
    closure_object t trait_ ptypes ret = .ok (k, t) := by
  have hk := hext.1 _ _ (closure_object_own_key h)
  unfold closure_object
  simp only
  rw [hk]

/-! ## get_or_monomorphise lemmas -/

theorem get_or_monomorphise_extends {kind : M TypeKind} {mparams : List MonoType}
    {tmap : TypeMap} {s : MonoState}
    {or_ : TypeMap → MonoState → Except EErr (MonomorphisedRecord × MonoState)}
    {mk : Nat} {s' : MonoState}
    (hor : ∀ tm si r so, or_ tm si = .ok (r, so) → Extends si so)
    (h : get_or_monomorphise kind mparams tmap s or_ = .ok (mk, s')) : Extends s s' := by
  unfold get_or_monomorphise at h
  simp only at h
  split at h
  · cases h
    exact Extends.refl s
  · rename_i hl
    split at h
    · cases h
    · rename_i rcd s₂ hb
      split at h
      · cases h
      · rename_i cur hg
        split at h
        · cases h
          exact Extends.trans (extends_reserve hl)
            (Extends.trans (hor _ _ _ _ hb) (extends_set _ _ _))
        · cases h

theorem get_or_monomorphise_own_key {kind : M TypeKind} {mparams : List MonoType}
    {tmap : TypeMap} {s : MonoState}
    {or_ : TypeMap → MonoState → Except EErr (MonomorphisedRecord × MonoState)}
    {mk : Nat} {s' : MonoState}
    (hor : ∀ tm si r so, or_ tm si = .ok (r, so) → Extends si so)
    (h : get_or_monomorphise kind mparams tmap s or_ = .ok (mk, s')) :
    alookup (kind, mparams) s'.resolve = some mk := by
  unfold get_or_monomorphise at h
  simp only at h
  split at h
  · rename_i k₀ hl
    cases h
    exact hl
  · rename_i hl
    split at h
    · cases h
    · rename_i rcd s₂ hb
      split at h
      · cases h
      · rename_i cur hg
        split at h
        · cases h
          exact (hor _ _ _ _ hb).1 _ _ alookup_cons_self
        · cases h

theorem get_or_monomorphise_stable {kind : M TypeKind} {mparams : List MonoType}
    {tmap : TypeMap} {s : MonoState}
    {or_ : TypeMap → MonoState → Except EErr (MonomorphisedRecord × MonoState)}
    {mk : Nat} {s' t : MonoState}
    (hor : ∀ tm si r so, or_ tm si = .ok (r, so) → Extends si so)
    (h : get_or_monomorphise kind mparams tmap s or_ = .ok (mk, s'))
    (hext : Extends s' t) (tmap₂ : TypeMap)
    (or₂ : TypeMap → MonoState → Except EErr (MonomorphisedRecord × MonoState)) :
    get_or_monomorphise kind mparams tmap₂ t or₂ = .ok (mk, t) := by
  have hk := hext.1 _ _ (get_or_monomorphise_own_key hor h)
  unfold get_or_monomorphise
  simp only
  rw [hk]

/-! ## Invariant-step lemmas -/

theorem entry_sum_ok_append {types extra : List MonomorphisedRecord}
    {p : (M TypeKind × List MonoType) × Nat} (hlt : p.2 < types.length)
    (h : entry_sum_ok types p = true) : entry_sum_ok (types ++ extra) p = true := by
  unfold entry_sum_ok at h ⊢
  cases hk : p.1.1.value with
  | sum sk =>
    rw [hk] at h
    dsimp only at h ⊢
    rw [List.getElem?_append, if_pos hlt]
    exact h
  | record rk => rfl
  | trait tk => rfl

theorem entry_sum_ok_set_ne {types : List MonomorphisedRecord} {mk : Nat}
    {rcd : MonomorphisedRecord} {p : (M TypeKind × List MonoType) × Nat} (hne : mk ≠ p.2)
    (h : entry_sum_ok types p = true) : entry_sum_ok (types.set mk rcd) p = true := by
  unfold entry_sum_ok at h ⊢
  cases hk : p.1.1.value with
  | sum sk =>
    rw [hk] at h
    dsimp only at h ⊢
    rw [List.getElem?_set_ne hne]
    exact h
  | record rk => rfl
  | trait tk => rfl

theorem state_vals_reserve (s : MonoState) (kind : M TypeKind) (mparams : List MonoType) :
    state_vals { s with types := s.types ++ [MonomorphisedRecord.placeholder],
                        resolve := ((kind, mparams), s.types.length) :: s.resolve }
      = s.types.length :: state_vals s := by
  simp [state_vals, resolve_vals, tuple_vals]

theorem inv_reserve {s : MonoState} {kind : M TypeKind} {mparams : List MonoType}
    (hinv : EngineInv s) (_hl : alookup (kind, mparams) s.resolve = none) :
    EngineInv { s with types := s.types ++ [MonomorphisedRecord.placeholder],
                       resolve := ((kind, mparams), s.types.length) :: s.resolve } := by
  obtain ⟨hnd, hbd, hsum⟩ := hinv
  refine ⟨?_, ?_, ?_⟩
  · rw [state_vals_reserve, List.nodup_cons]
    exact ⟨fun hmem => absurd (hbd _ hmem) (Nat.lt_irrefl _), hnd⟩
  · intro v hv
    rw [state_vals_reserve] at hv
    simp only [List.length_append, List.length_cons, List.length_nil]
    rcases List.mem_cons.mp hv with rfl | hv
    · omega
    · exact Nat.lt_succ_of_lt (hbd _ hv)
  · intro p hp
    rcases List.mem_cons.mp hp with rfl | hp
    · show entry_sum_ok _ ((kind, mparams), s.types.length) = true
      unfold entry_sum_ok
      dsimp only
      cases hk : kind.value with
      | sum sk =>
        rw [List.getElem?_concat_length]
        simp [record_sum_shape]
      | record rk => rfl
      | trait tk => rfl
    · have hplt : p.2 < s.types.length := by
        refine hbd _ ?_
        unfold state_vals resolve_vals
        exact List.mem_append_left _ (List.mem_map_of_mem (fun q => q.2) hp)
      exact entry_sum_ok_append hplt (hsum p hp)

theorem inv_patch {s : MonoState} {kind : M TypeKind} {mparams : List MonoType} {mk : Nat}
    {rcd : MonomorphisedRecord} (hinv : EngineInv s)
    (hmem : alookup (kind, mparams) s.resolve = some mk) (hshape : sum_kind_ok kind rcd) :
    EngineInv { s with types := s.types.set mk rcd } := by
  obtain ⟨hnd, hbd, hsum⟩ := hinv
  refine ⟨hnd, ?_, ?_⟩
  · intro v hv
    simpa using hbd v hv
  · intro p hp
    by_cases hpm : p.2 = mk
    · have hrnd : (s.resolve.map (fun q => q.2)).Nodup := by
        have h2 := hnd
        unfold state_vals resolve_vals at h2
        exact (List.nodup_append.mp h2).1
      have hpeq : p = ((kind, mparams), mk) :=
        mem_eq_of_nodup_map_snd hrnd hp (alookup_mem hmem) hpm
      have hlt : mk < s.types.length := by
        refine hbd mk ?_
        unfold state_vals resolve_vals
        refine List.mem_append_left _ ?_
        rw [← hpm]
        exact List.mem_map_of_mem (fun q => q.2) hp
      unfold entry_sum_ok
      rw [hpeq]
      dsimp only
      cases hk : kind.value with
      | sum sk =>
        rw [List.getElem?_set_self hlt]
        dsimp only
        unfold sum_kind_ok at hshape
        rw [hk] at hshape
        exact hshape
      | record rk => rfl
      | trait tk => rfl
    · exact entry_sum_ok_set_ne (fun he => hpm he.symm) (hsum p hp)

theorem state_vals_make_tuple (s : MonoState) (elems : List MonoType)
    (rcd : MonomorphisedRecord) :
    state_vals { s with types := s.types ++ [rcd],
                        tuples := (elems, s.types.length) :: s.tuples }
      = resolve_vals s ++ s.types.length :: tuple_vals s := by
  simp [state_vals, resolve_vals, tuple_vals]

theorem get_or_make_tuple_inv {f : Nat} {s : MonoState} {elems : List MonoType}
    {k : Nat} {s' : MonoState} (hinv : EngineInv s)
    (h : get_or_make_tuple f s elems = .ok (k, s')) : EngineInv s' := by
  unfold get_or_make_tuple at h
  split at h
  · cases h
    exact hinv
  · rename_i hl
    split at h
    · cases h
    · rename_i size hs
      simp only at h
      cases h
      obtain ⟨hnd, hbd, hsum⟩ := hinv
      refine ⟨?_, ?_, ?_⟩
      · rw [state_vals_make_tuple, List.nodup_middle]
        rw [List.nodup_cons]
        refine ⟨?_, ?_⟩
        · intro hmem
          exact absurd (hbd _ hmem) (Nat.lt_irrefl _)
        · exact hnd
      · intro v hv
        rw [state_vals_make_tuple] at hv
        simp only [List.length_append, List.length_cons, List.length_nil]
        rcases List.mem_append.mp hv with hv | hv
        · exact Nat.lt_succ_of_lt (hbd _ (List.mem_append_left _ hv))
        · rcases List.mem_cons.mp hv with rfl | hv
          · omega
          · exact Nat.lt_succ_of_lt (hbd _ (List.mem_append_right _ hv))
      · intro p hp
        have hplt : p.2 < s.types.length := by
          refine hbd _ ?_
          unfold state_vals resolve_vals
          exact List.mem_append_left _ (List.mem_map_of_mem (fun q => q.2) hp)
        exact entry_sum_ok_append hplt (hsum p hp)

theorem Extends.trans3 {s a b u : MonoState} (h₁ : Extends s a) (h₂ : Extends a b)
    (h₃ : Extends b u) : Extends s u :=
  Extends.trans h₁ (Extends.trans h₂ h₃)

theorem trait_object_from_vtable_extends {s : MonoState} {key : M Nat} {dst : Nat}
    {vt : MonoType} {s' : MonoState} (h : trait_object_from_vtable s key dst vt = .ok s') :
    Extends s s' := by
  obtain ⟨rfl, _⟩ := trait_object_from_vtable_ok h
  exact extends_set _ _ _

theorem get_or_monomorphise_inv {kind : M TypeKind} {mparams : List MonoType}
    {tmap : TypeMap} {s : MonoState}
    {or_ : TypeMap → MonoState → Except EErr (MonomorphisedRecord × MonoState)}
    {mk : Nat} {s' : MonoState}
    (hor_ext : ∀ tm si r so, or_ tm si = .ok (r, so) → Extends si so)
    (hor_inv : ∀ tm si r so, EngineInv si → or_ tm si = .ok (r, so) → EngineInv so)
    (hor_shape : ∀ tm si r so, or_ tm si = .ok (r, so) → sum_kind_ok kind r)
    (hinv : EngineInv s)
    (h : get_or_monomorphise kind mparams tmap s or_ = .ok (mk, s')) : EngineInv s' := by
  unfold get_or_monomorphise at h
  simp only at h
  split at h
  · cases h
    exact hinv
  · rename_i hl
    split at h
    · cases h
    · rename_i rcd s₂ hb
      split at h
      · cases h
      · rename_i cur hg
        split at h
        · cases h
          have hinv₁ := inv_reserve hinv hl
          have hinv₂ := hor_inv _ _ _ _ hinv₁ hb
          have hmem : alookup (kind, mparams) s₂.resolve = some s.types.length :=
            (hor_ext _ _ _ _ hb).1 _ _ alookup_cons_self
          exact inv_patch hinv₂ hmem (hor_shape _ _ _ _ hb)
        · cases h

theorem construct_parts {f : Nat} {types : List MonomorphisedRecord}
    {original : Option (M TypeKind)} {fields : List MonoType} {repr : LayoutRepr}
    {rcd : MonomorphisedRecord} (h : construct f types original fields repr = .ok rcd) :
    rcd.fields = fields ∧ rcd.original = original ∧ rcd.repr = repr := by
  unfold construct at h
  cases hs : sum_sizes f types fields with
  | error e => simp [hs] at h
  | ok size =>
    cases ho : (match original with
        | some key => autoboxed_fields f types key 0 fields
        | none => Except.ok []) with
    | error e => simp [hs, ho] at h
    | ok ab =>
      simp only [hs, ho] at h
      cases h
      exact ⟨rfl, rfl, rfl⟩

theorem tofv_inv {s : MonoState} {key : M Nat} {dst : Nat} {vt : MonoType} {s' : MonoState}
    {kind : M TypeKind} {ps : List MonoType}
    (hinv : EngineInv s) (hmem : alookup (kind, ps) s.resolve = some dst)
    (hkind : ∀ sk, kind.value ≠ TypeKind.sum sk)
    (h : trait_object_from_vtable s key dst vt = .ok s') : EngineInv s' := by
  obtain ⟨rfl, _⟩ := trait_object_from_vtable_ok h
  refine inv_patch hinv hmem ?_
  unfold sum_kind_ok
  cases hk : kind.value with
  | record rk => trivial
  | trait tk => trivial
  | sum sk => exact absurd hk (hkind sk)

theorem closure_object_inv {s : MonoState} {trait_ : M Nat} {ptypes : List MonoType}
    {ret : MonoType} {k : Nat} {s' : MonoState} (hinv : EngineInv s)
    (h : closure_object s trait_ ptypes ret = .ok (k, s')) : EngineInv s' := by
  unfold closure_object at h
  simp only at h
  split at h
  · cases h
    exact hinv
  · rename_i hl
    split at h
    · rename_i s₂ hv
      cases h
      exact tofv_inv (inv_reserve hinv hl) alookup_cons_self (by simp) hv
    · cases h

/-! ## Monotonicity of the engine: every successful run only extends the
state (memo entries are never removed or overwritten). -/

theorem engine_extends (env : Env) : ∀ f : Nat,
    (∀ {tmap s ty r s'}, apply f env tmap s ty = .ok (r, s') → Extends s s') ∧
    (∀ {tmap s key params r s'},
      apply_defined f env tmap s key params = .ok (r, s') → Extends s s') ∧
    (∀ {tmap s tys rs s'}, applys f env tmap s tys = .ok (rs, s') → Extends s s') ∧
    (∀ {tmap s vtss rs s'}, apply_variants f env tmap s vtss = .ok (rs, s') → Extends s s') ∧
    (∀ {tmap s module func r s'},
      method_to_fnptr f env tmap s module func = .ok (r, s') → Extends s s') ∧
    (∀ {tmap s module ms rs s'},
      methods_to_fnptrs f env tmap s module ms = .ok (rs, s') → Extends s s') ∧
    (∀ {tmap s key params mk s'}, record f env tmap s key params = .ok (mk, s') → Extends s s') ∧
    (∀ {tmap s key params mk s'}, sum f env tmap s key params = .ok (mk, s') → Extends s s') ∧
    (∀ {s trait_ mparams mk s'},
      trait_object f env s trait_ mparams = .ok (mk, s') → Extends s s') := by
  intro f
  induction f with
  | zero =>
    refine ⟨?_, ?_, ?_, ?_, ?_, ?_, ?_, ?_, ?_⟩
    · intro _ _ _ _ _ h; simp [apply] at h
    · intro _ _ _ _ _ _ h; simp [apply_defined] at h
    · intro _ _ _ _ _ h; simp [applys] at h
    · intro _ _ _ _ _ h; simp [apply_variants] at h
    · intro _ _ _ _ _ _ h; simp [method_to_fnptr] at h
    · intro _ _ _ _ _ _ h; simp [methods_to_fnptrs] at h
    · intro _ _ _ _ _ _ h; simp [record] at h
    · intro _ _ _ _ _ _ h; simp [sum] at h
    · intro _ _ _ _ _ h; simp [trait_object] at h
  | succ f ih =>
    obtain ⟨iha, ihd, ihs, ihv, ihm, ihms, ihr, ihsum, iht⟩ := ih
    refine ⟨?_, ?_, ?_, ?_, ?_, ?_, ?_, ?_, ?_⟩
    · -- apply
      intro tmap s ty r s' h
      unfold apply at h
      repeat' split at h
      all_goals try cases h
      any_goals exact Extends.refl _
      all_goals first
        | exact ihd (by assumption)
        | exact iha (by assumption)
        | exact ihs (by assumption)
        | exact Extends.trans (ihs (by assumption)) (get_or_make_tuple_extends (by assumption))
        | exact Extends.trans3 (ihs (by assumption)) (iha (by assumption))
            (closure_object_extends (by assumption))
    · -- apply_defined
      intro tmap s key params r s' h
      unfold apply_defined at h
      repeat' split at h
      all_goals try cases h
      all_goals first
        | exact ihr (by assumption)
        | exact ihsum (by assumption)
        | exact Extends.trans (ihs (by assumption)) (iht (by assumption))
    · -- applys
      intro tmap s tys rs s' h
      cases tys with
      | nil =>
        simp only [applys] at h
        cases h
        exact Extends.refl _
      | cons t ts =>
        simp only [applys] at h
        repeat' split at h
        all_goals try cases h
        all_goals exact Extends.trans (iha (by assumption)) (ihs (by assumption))
    · -- apply_variants
      intro tmap s vtss rs s' h
      cases vtss with
      | nil =>
        simp only [apply_variants] at h
        cases h
        exact Extends.refl _
      | cons v vs =>
        simp only [apply_variants] at h
        repeat' split at h
        all_goals try cases h
        all_goals exact Extends.trans (ihs (by assumption)) (ihv (by assumption))
    · -- method_to_fnptr
      intro tmap s module func r s' h
      unfold method_to_fnptr at h
      simp only at h
      repeat' split at h
      all_goals try cases h
      all_goals exact Extends.trans (ihs (by assumption)) (iha (by assumption))
    · -- methods_to_fnptrs
      intro tmap s module ms rs s' h
      cases ms with
      | nil =>
        simp only [methods_to_fnptrs] at h
        cases h
        exact Extends.refl _
      | cons m ms =>
        simp only [methods_to_fnptrs] at h
        repeat' split at h
        all_goals try cases h
        all_goals exact Extends.trans (ihm (by assumption)) (ihms (by assumption))
    · -- record
      intro tmap s key params mk s' h
      unfold record at h
      split at h
      · cases h
      · rename_i mparams s₁ happ
        refine Extends.trans (ihs happ) (get_or_monomorphise_extends ?_ h)
        intro tm si rr so hb
        simp only at hb
        split at hb
        · cases hb
        · rename_i fields s₃ happ2
          split at hb
          · cases hb
          · cases hb
            exact ihs happ2
    · -- sum
      intro tmap s key params mk s' h
      unfold sum at h
      split at h
      · cases h
      · rename_i mparams s₁ happ
        refine Extends.trans (ihs happ) (get_or_monomorphise_extends ?_ h)
        intro tm si rr so hb
        simp only at hb
        split at hb
        · cases hb
        · rename_i variants s₃ hvar
          split at hb
          · cases hb
          · rename_i sums hsums
            split at hb
            · cases hb
            · rename_i largest hmax
              split at hb
              · cases hb
              · cases hb
                exact ihv hvar
    · -- trait_object
      intro s trait_ mparams mk s' h
      unfold trait_object at h
      simp only at h
      split at h
      · cases h
        exact Extends.refl _
      · rename_i hl
        split at h
        · cases h
        · rename_i vt s₂ hveq
          split at h
          · rename_i s₃ htof
            cases h
            by_cases hc : trait_ = env.closure
            · rw [if_pos hc] at hveq
              repeat' split at hveq
              all_goals try cases hveq
              all_goals
                exact Extends.trans (extends_reserve (by assumption))
                  (trait_object_from_vtable_extends (by assumption))
            · rw [if_neg hc] at hveq
              repeat' split at hveq
              all_goals try cases hveq
              all_goals first
                | exact Extends.trans3 (extends_reserve (by assumption)) (ihm (by assumption))
                    (trait_object_from_vtable_extends (by assumption))
                | exact Extends.trans (extends_reserve (by assumption))
                    (Extends.trans3 (ihms (by assumption))
                      (get_or_make_tuple_extends (by assumption))
                      (trait_object_from_vtable_extends (by assumption)))
          · cases h

/-- State extension for the field-substitution body of `record` (the `or`
closure passed to `get_or_monomorphise`). -/
theorem record_orbody_extends (env : Env) (f : Nat) (key : M Nat) :
    ∀ tm si rr so,
      (fun tmap₂ s₂ =>
          match applys f env tmap₂ s₂ (env.field_types key) with
          | .error e => .error e
          | .ok (fields, s₃) =>
            match construct f s₃.types (some ⟨key.module, TypeKind.record key.value⟩)
                fields .lumina with
            | .error e => .error e
            | .ok rcd => .ok (rcd, s₃)) tm si = Except.ok (rr, so) → Extends si so := by
  intro tm si rr so hb
  simp only at hb
  split at hb
  · cases hb
  · rename_i fields s₃ happ2
    split at hb
    · cases hb
    · cases hb
      exact (engine_extends env f).2.2.1 happ2

/-- State extension for the variant body of `sum`. -/
theorem sum_orbody_extends (env : Env) (f : Nat) (key : M Nat) :
    ∀ tm si rr so,
      (fun tmap₂ s₂ =>
          match apply_variants f env tmap₂ s₂ (env.variant_types key) with
          | .error e => .error e
          | .ok (variants, s₃) =>
            match variant_sums f s₃.types variants with
            | .error e => .error e
            | .ok sums =>
              match list_max sums with
              | none => .error .panic
              | some largest =>
                match construct f s₃.types (some ⟨key.module, TypeKind.sum key.value⟩)
                    [MonoType.int TAG_SIZE, MonoType.sumDataCast largest] .lumina with
                | .error e => .error e
                | .ok rcd => .ok (rcd, s₃)) tm si = Except.ok (rr, so) → Extends si so := by
  intro tm si rr so hb
  simp only at hb
  split at hb
  · cases hb
  · rename_i variants s₃ hvar
    split at hb
    · cases hb
    · rename_i sums hsums
      split at hb
      · cases hb
      · rename_i largest hmax
        split at hb
        · cases hb
        · cases hb
          exact (engine_extends env f).2.2.2.1 hvar

/-- The memo entry written by a successful `trait_object` run survives in
the final state. -/
theorem trait_object_own_key {f : Nat} {env : Env} {s : MonoState} {trait_ : M Nat}
    {mparams : List MonoType} {mk : Nat} {s' : MonoState}
    (h : trait_object f env s trait_ mparams = .ok (mk, s')) :
    alookup ((⟨trait_.module, TypeKind.trait trait_.value⟩ : M TypeKind),
      mparams) s'.resolve = some mk := by
  match f with
  | 0 => simp [trait_object] at h
  | f + 1 =>
    unfold trait_object at h
    simp only at h
    split at h
    · rename_i k₀ hl
      cases h
      exact hl
    · rename_i hl
      split at h
      · cases h
      · rename_i vt s₂ hveq
        split at h
        · rename_i s₃ htof
          cases h
          have hbase : alookup ((⟨trait_.module, TypeKind.trait trait_.value⟩ : M TypeKind),
              mparams) s₂.resolve = some s.types.length := by
            by_cases hc : trait_ = env.closure
            · rw [if_pos hc] at hveq
              repeat' split at hveq
              all_goals try cases hveq
              all_goals exact alookup_cons_self
            · rw [if_neg hc] at hveq
              repeat' split at hveq
              all_goals try cases hveq
              · rename_i func hms
                exact ((engine_extends env f).2.2.2.2.1 hveq).1 _ _ alookup_cons_self
              · rename_i hms x0 obj htup
                exact (get_or_make_tuple_extends htup).1 _ _
                  (((engine_extends env f).2.2.2.2.2.1 hms).1 _ _ alookup_cons_self)
          obtain ⟨rfl, _⟩ := trait_object_from_vtable_ok htof
          exact hbase
        · cases h

/-! ## Invariant preservation: every successful run keeps the engine
invariant (distinct keys, in-range keys, sum-shaped sum entries). -/

theorem engine_inv (env : Env) : ∀ f : Nat,
    (∀ {tmap s ty r s'}, EngineInv s → apply f env tmap s ty = .ok (r, s') → EngineInv s') ∧
    (∀ {tmap s key params r s'}, EngineInv s →
      apply_defined f env tmap s key params = .ok (r, s') → EngineInv s') ∧
    (∀ {tmap s tys rs s'}, EngineInv s → applys f env tmap s tys = .ok (rs, s') →
      EngineInv s') ∧
    (∀ {tmap s vtss rs s'}, EngineInv s → apply_variants f env tmap s vtss = .ok (rs, s') →
      EngineInv s') ∧
    (∀ {tmap s module func r s'}, EngineInv s →
      method_to_fnptr f env tmap s module func = .ok (r, s') → EngineInv s') ∧
    (∀ {tmap s module ms rs s'}, EngineInv s →
      methods_to_fnptrs f env tmap s module ms = .ok (rs, s') → EngineInv s') ∧
    (∀ {tmap s key params mk s'}, EngineInv s → record f env tmap s key params = .ok (mk, s') →
      EngineInv s') ∧
    (∀ {tmap s key params mk s'}, EngineInv s → sum f env tmap s key params = .ok (mk, s') →
      EngineInv s') ∧
    (∀ {s trait_ mparams mk s'}, EngineInv s → trait_object f env s trait_ mparams = .ok (mk, s') →
      EngineInv s') := by
  intro f
  induction f with
  | zero =>
    refine ⟨?_, ?_, ?_, ?_, ?_, ?_, ?_, ?_, ?_⟩
    · intro _ _ _ _ _ _ h; simp [apply] at h
    · intro _ _ _ _ _ _ _ h; simp [apply_defined] at h
    · intro _ _ _ _ _ _ h; simp [applys] at h
    · intro _ _ _ _ _ _ h; simp [apply_variants] at h
    · intro _ _ _ _ _ _ _ h; simp [method_to_fnptr] at h
    · intro _ _ _ _ _ _ _ h; simp [methods_to_fnptrs] at h
    · intro _ _ _ _ _ _ _ h; simp [record] at h
    · intro _ _ _ _ _ _ _ h; simp [sum] at h
    · intro _ _ _ _ _ _ h; simp [trait_object] at h
  | succ f ih =>
    obtain ⟨ihaI, ihdI, ihsI, ihvI, ihmI, ihmsI, ihrI, ihsumI, ihtI⟩ := ih
    refine ⟨?_, ?_, ?_, ?_, ?_, ?_, ?_, ?_, ?_⟩
    · -- apply
      intro tmap s ty r s' hinv h
      unfold apply at h
      repeat' split at h
      all_goals try cases h
      any_goals exact hinv
      all_goals first
        | exact ihdI hinv (by assumption)
        | exact ihaI hinv (by assumption)
        | exact ihsI hinv (by assumption)
        | exact get_or_make_tuple_inv (ihsI hinv (by assumption)) (by assumption)
        | exact closure_object_inv (ihaI (ihsI hinv (by assumption)) (by assumption))
            (by assumption)
    · -- apply_defined
      intro tmap s key params r s' hinv h
      unfold apply_defined at h
      repeat' split at h
      all_goals try cases h
      all_goals first
        | exact ihrI hinv (by assumption)
        | exact ihsumI hinv (by assumption)
        | exact ihtI (ihsI hinv (by assumption)) (by assumption)
    · -- applys
      intro tmap s tys rs s' hinv h
      cases tys with
      | nil =>
        simp only [applys] at h
        cases h
        exact hinv
      | cons t ts =>
        simp only [applys] at h
        repeat' split at h
        all_goals try cases h
        all_goals exact ihsI (ihaI hinv (by assumption)) (by assumption)
    · -- apply_variants
      intro tmap s vtss rs s' hinv h
      cases vtss with
      | nil =>
        simp only [apply_variants] at h
        cases h
        exact hinv
      | cons v vs =>
        simp only [apply_variants] at h
        repeat' split at h
        all_goals try cases h
        all_goals exact ihvI (ihsI hinv (by assumption)) (by assumption)
    · -- method_to_fnptr
      intro tmap s module func r s' hinv h
      unfold method_to_fnptr at h
      simp only at h
      repeat' split at h
      all_goals try cases h
      all_goals exact ihaI (ihsI hinv (by assumption)) (by assumption)
    · -- methods_to_fnptrs
      intro tmap s module ms rs s' hinv h
      cases ms with
      | nil =>
        simp only [methods_to_fnptrs] at h
        cases h
        exact hinv
      | cons m ms =>
        simp only [methods_to_fnptrs] at h
        repeat' split at h
        all_goals try cases h
        all_goals exact ihmsI (ihmI hinv (by assumption)) (by assumption)
    · -- record
      intro tmap s key params mk s' hinv h
      unfold record at h
      split at h
      · cases h
      · rename_i mparams s₁ happ
        refine get_or_monomorphise_inv ?_ ?_ ?_ (ihsI hinv happ) h
        · intro tm si rr so hb
          simp only at hb
          split at hb
          · cases hb
          · rename_i fields s₃ happ2
            split at hb
            · cases hb
            · cases hb
              exact (engine_extends env f).2.2.1 happ2
        · intro tm si rr so hsi hb
          simp only at hb
          split at hb
          · cases hb
          · rename_i fields s₃ happ2
            split at hb
            · cases hb
            · cases hb
              exact ihsI hsi happ2
        · intro tm si rr so hb
          exact trivial
    · -- sum
      intro tmap s key params mk s' hinv h
      unfold sum at h
      split at h
      · cases h
      · rename_i mparams s₁ happ
        refine get_or_monomorphise_inv ?_ ?_ ?_ (ihsI hinv happ) h
        · intro tm si rr so hb
          simp only at hb
          split at hb
          · cases hb
          · rename_i variants s₃ hvar
            split at hb
            · cases hb
            · rename_i sums hsums
              split at hb
              · cases hb
              · rename_i largest hmax
                split at hb
                · cases hb
                · cases hb
                  exact (engine_extends env f).2.2.2.1 hvar
        · intro tm si rr so hsi hb
          simp only at hb
          split at hb
          · cases hb
          · rename_i variants s₃ hvar
            split at hb
            · cases hb
            · rename_i sums hsums
              split at hb
              · cases hb
              · rename_i largest hmax
                split at hb
                · cases hb
                · cases hb
                  exact ihvI hsi hvar
        · intro tm si rr so hb
          simp only at hb
          split at hb
          · cases hb
          · rename_i variants s₃ hvar
            split at hb
            · cases hb
            · rename_i sums hsums
              split at hb
              · cases hb
              · rename_i largest hmax
                split at hb
                · cases hb
                · rename_i rcd hcon
                  cases hb
                  unfold sum_kind_ok
                  dsimp only
                  unfold record_sum_shape
                  rw [(construct_parts hcon).1]
                  simp
    · -- trait_object
      intro s trait_ mparams mk s' hinv h
      unfold trait_object at h
      simp only at h
      split at h
      · cases h
        exact hinv
      · rename_i hl
        split at h
        · cases h
        · rename_i vt s₂ hveq
          split at h
          · rename_i s₃ htof
            cases h
            by_cases hc : trait_ = env.closure
            · rw [if_pos hc] at hveq
              repeat' split at hveq
              all_goals try cases hveq
              all_goals
                exact tofv_inv (inv_reserve hinv hl) alookup_cons_self (by simp) htof
            · rw [if_neg hc] at hveq
              repeat' split at hveq
              all_goals try cases hveq
              · -- single method
                rename_i func hms
                have hmem := ((engine_extends env f).2.2.2.2.1 hveq).1 _ _
                  (alookup_cons_self)
                exact tofv_inv (ihmI (inv_reserve hinv hl) hveq) hmem (by simp) htof
              · -- multi method: methods_to_fnptrs then vtable tuple
                rename_i hms x0 obj htup
                have hmem := (get_or_make_tuple_extends htup).1 _ _
                  (((engine_extends env f).2.2.2.2.2.1 hms).1 _ _ alookup_cons_self)
                exact tofv_inv
                  (get_or_make_tuple_inv (ihmsI (inv_reserve hinv hl) hms) htup)
                  hmem (by simp) htof
          · cases h

/-! ## Stability: a successful run re-executed from any extension of its
final state succeeds with the same value (all memo lookups now hit). -/

theorem engine_stable (env : Env) : ∀ f : Nat,
    (∀ {tmap s ty r s' t}, apply f env tmap s ty = .ok (r, s') → Extends s' t →
      ∃ t', apply f env tmap t ty = .ok (r, t')) ∧
    (∀ {tmap s key params r s' t}, apply_defined f env tmap s key params = .ok (r, s') →
      Extends s' t → ∃ t', apply_defined f env tmap t key params = .ok (r, t')) ∧
    (∀ {tmap s tys rs s' t}, applys f env tmap s tys = .ok (rs, s') → Extends s' t →
      ∃ t', applys f env tmap t tys = .ok (rs, t')) ∧
    (∀ {tmap s vtss rs s' t}, apply_variants f env tmap s vtss = .ok (rs, s') → Extends s' t →
      ∃ t', apply_variants f env tmap t vtss = .ok (rs, t')) ∧
    (∀ {tmap s module func r s' t}, method_to_fnptr f env tmap s module func = .ok (r, s') →
      Extends s' t → ∃ t', method_to_fnptr f env tmap t module func = .ok (r, t')) ∧
    (∀ {tmap s module ms rs s' t}, methods_to_fnptrs f env tmap s module ms = .ok (rs, s') →
      Extends s' t → ∃ t', methods_to_fnptrs f env tmap t module ms = .ok (rs, t')) ∧
    (∀ {tmap s key params mk s' t}, record f env tmap s key params = .ok (mk, s') →
      Extends s' t → ∃ t', record f env tmap t key params = .ok (mk, t')) ∧
    (∀ {tmap s key params mk s' t}, sum f env tmap s key params = .ok (mk, s') →
      Extends s' t → ∃ t', sum f env tmap t key params = .ok (mk, t')) ∧
    (∀ {s trait_ mparams mk s' t}, trait_object f env s trait_ mparams = .ok (mk, s') →
      Extends s' t → ∃ t', trait_object f env t trait_ mparams = .ok (mk, t')) := by
  intro f
  induction f with
  | zero =>
    refine ⟨?_, ?_, ?_, ?_, ?_, ?_, ?_, ?_, ?_⟩
    · intro _ _ _ _ _ _ h _; simp [apply] at h
    · intro _ _ _ _ _ _ _ h _; simp [apply_defined] at h
    · intro _ _ _ _ _ _ h _; simp [applys] at h
    · intro _ _ _ _ _ _ h _; simp [apply_variants] at h
    · intro _ _ _ _ _ _ _ h _; simp [method_to_fnptr] at h
    · intro _ _ _ _ _ _ _ h _; simp [methods_to_fnptrs] at h
    · intro _ _ _ _ _ _ _ h _; simp [record] at h
    · intro _ _ _ _ _ _ _ h _; simp [sum] at h
    · intro _ _ _ _ _ _ h _; simp [trait_object] at h
  | succ f ih =>
    obtain ⟨ihaS, ihdS, ihsS, ihvS, ihmS, ihmsS, ihrS, ihsumS, ihtS⟩ := ih
    have Ea : ∀ {tmap s ty r s'}, apply f env tmap s ty = .ok (r, s') → Extends s s' :=
      (engine_extends env f).1
    have Es : ∀ {tmap s tys rs s'}, applys f env tmap s tys = .ok (rs, s') → Extends s s' :=
      (engine_extends env f).2.2.1
    have Ev : ∀ {tmap s vtss rs s'}, apply_variants f env tmap s vtss = .ok (rs, s') →
        Extends s s' := (engine_extends env f).2.2.2.1
    have Em : ∀ {tmap s module func r s'}, method_to_fnptr f env tmap s module func =
        .ok (r, s') → Extends s s' := (engine_extends env f).2.2.2.2.1
    refine ⟨?_, ?_, ?_, ?_, ?_, ?_, ?_, ?_, ?_⟩
    · -- apply
      intro tmap s ty r s' t h hext
      cases ty with
      | container c params =>
        cases c with
        | fnPointerC =>
          simp only [apply] at h
          cases h1 : applys f env tmap s params with
          | error e => simp only [h1] at h; cases h
          | ok pr =>
            obtain ⟨mparams, s₁⟩ := pr
            simp only [h1] at h
            cases h2 : mparams.getLast? with
            | none => simp only [h2] at h; cases h
            | some ret0 =>
              simp only [h2] at h
              cases h
              obtain ⟨t₁, ht₁⟩ := ihsS h1 hext
              exact ⟨t₁, by simp only [apply, ht₁, h2]⟩
        | closureC =>
          simp only [apply] at h
          cases hg : params.getLast? with
          | none => simp only [hg] at h; cases h
          | some retw =>
            simp only [hg] at h
            cases h1 : applys f env tmap s params.dropLast with
            | error e => simp only [h1] at h; cases h
            | ok pr =>
              obtain ⟨mp, s₁⟩ := pr
              simp only [h1] at h
              cases h2 : apply f env tmap s₁ retw with
              | error e => simp only [h2] at h; cases h
              | ok pr2 =>
                obtain ⟨ret, s₂⟩ := pr2
                simp only [h2] at h
                cases h3 : closure_object s₂ env.closure mp ret with
                | error e => simp only [h3] at h; cases h
                | ok pr3 =>
                  obtain ⟨obj, s₃⟩ := pr3
                  simp only [h3] at h
                  cases h
                  have e12 : Extends s₁ s₂ := Ea h2
                  have e23 : Extends s₂ s' := closure_object_extends h3
                  obtain ⟨t₁, ht₁⟩ :=
                    ihsS h1 (Extends.trans e12 (Extends.trans e23 hext))
                  have et1 : Extends t t₁ := Es ht₁
                  obtain ⟨t₂, ht₂⟩ :=
                    ihaS h2 (Extends.trans e23 (Extends.trans hext et1))
                  have et2 : Extends t₁ t₂ := Ea ht₂
                  have h3s : closure_object t₂ env.closure mp ret = .ok (obj, t₂) :=
                    closure_object_stable h3
                      (Extends.trans hext (Extends.trans et1 et2))
                  exact ⟨t₂, by simp only [apply, hg, ht₁, ht₂, h3s]⟩
        | tuple =>
          simp only [apply] at h
          cases h1 : applys f env tmap s params with
          | error e => simp only [h1] at h; cases h
          | ok pr =>
            obtain ⟨elems, s₁⟩ := pr
            simp only [h1] at h
            cases h2 : get_or_make_tuple f s₁ elems with
            | error e => simp only [h2] at h; cases h
            | ok pr2 =>
              obtain ⟨k, s₂⟩ := pr2
              simp only [h2] at h
              cases h
              obtain ⟨t₁, ht₁⟩ :=
                ihsS h1 (Extends.trans (get_or_make_tuple_extends h2) hext)
              have h2s : get_or_make_tuple f t₁ elems = .ok (k, t₁) :=
                get_or_make_tuple_stable h2 (Extends.trans hext (Es ht₁))
              exact ⟨t₁, by simp only [apply, ht₁, h2s]⟩
        | pointerC =>
          simp only [apply] at h
          cases hp : params[0]? with
          | none => simp only [hp] at h; cases h
          | some p0 =>
            simp only [hp] at h
            cases h1 : apply f env tmap s p0 with
            | error e => simp only [h1] at h; cases h
            | ok pr =>
              obtain ⟨inner, s₁⟩ := pr
              simp only [h1] at h
              cases h
              obtain ⟨t₁, ht₁⟩ := ihaS h1 hext
              exact ⟨t₁, by simp only [apply, hp, ht₁]⟩
        | stringC key =>
          simp only [apply] at h
          obtain ⟨t₁, ht₁⟩ := ihdS h hext
          exact ⟨t₁, by simp only [apply, ht₁]⟩
        | listC key =>
          simp only [apply] at h
          obtain ⟨t₁, ht₁⟩ := ihdS h hext
          exact ⟨t₁, by simp only [apply, ht₁]⟩
        | definedC key =>
          simp only [apply] at h
          obtain ⟨t₁, ht₁⟩ := ihdS h hext
          exact ⟨t₁, by simp only [apply, ht₁]⟩
      | generic g =>
        simp only [apply] at h
        cases hg : alookup g tmap.generics with
        | none => simp only [hg] at h; cases h
        | some v =>
          simp only [hg] at h
          cases h
          exact ⟨t, by simp only [apply, hg]⟩
      | int sz =>
        simp only [apply] at h
        cases h
        exact ⟨t, by simp only [apply]⟩
      | simple n =>
        simp only [apply] at h
        by_cases h1 : n = "f64"
        · rw [if_pos h1] at h
          cases h
          exact ⟨t, by simp only [apply, if_pos h1]⟩
        · rw [if_neg h1] at h
          by_cases h2 : n = "bool"
          · rw [if_pos h2] at h
            cases h
            exact ⟨t, by simp only [apply, if_neg h1, if_pos h2]⟩
          · rw [if_neg h2] at h
            by_cases h3 : n = "self"
            · rw [if_pos h3] at h
              cases hs : tmap.self_ with
              | none => rw [hs] at h; cases h
              | some v =>
                rw [hs] at h
                cases h
                exact ⟨t, by simp only [apply, if_neg h1, if_neg h2, if_pos h3, hs]⟩
            · rw [if_neg h3] at h
              cases h
    · -- apply_defined
      intro tmap s key params r s' t h hext
      obtain ⟨module, kv⟩ := key
      cases kv with
      | record rk =>
        simp only [apply_defined] at h
        cases h1 : record f env tmap s ⟨module, rk⟩ params with
        | error e => simp only [h1] at h; cases h
        | ok pr =>
          obtain ⟨mk, s₁⟩ := pr
          simp only [h1] at h
          cases h
          obtain ⟨t₁, ht₁⟩ := ihrS h1 hext
          exact ⟨t₁, by simp only [apply_defined, ht₁]⟩
      | sum sk =>
        simp only [apply_defined] at h
        cases h1 : sum f env tmap s ⟨module, sk⟩ params with
        | error e => simp only [h1] at h; cases h
        | ok pr =>
          obtain ⟨mk, s₁⟩ := pr
          simp only [h1] at h
          cases h
          obtain ⟨t₁, ht₁⟩ := ihsumS h1 hext
          exact ⟨t₁, by simp only [apply_defined, ht₁]⟩
      | trait tk =>
        simp only [apply_defined] at h
        cases h1 : applys f env tmap s params with
        | error e => simp only [h1] at h; cases h
        | ok pr =>
          obtain ⟨mparams, s₁⟩ := pr
          simp only [h1] at h
          cases h2 : trait_object f env s₁ ⟨module, tk⟩ mparams with
          | error e => simp only [h2] at h; cases h
          | ok pr2 =>
            obtain ⟨mk, s₂⟩ := pr2
            simp only [h2] at h
            cases h
            have e12 : Extends s₁ s' := (engine_extends env f).2.2.2.2.2.2.2.2 h2
            obtain ⟨t₁, ht₁⟩ := ihsS h1 (Extends.trans e12 hext)
            obtain ⟨t₂, ht₂⟩ := ihtS h2 (Extends.trans hext (Es ht₁))
            exact ⟨t₂, by simp only [apply_defined, ht₁, ht₂]⟩
    · -- applys
      intro tmap s tys rs s' t h hext
      cases tys with
      | nil =>
        simp only [applys] at h
        cases h
        exact ⟨t, by simp only [applys]⟩
      | cons a as =>
        simp only [applys] at h
        cases h1 : apply f env tmap s a with
        | error e => simp only [h1] at h; cases h
        | ok pr =>
          obtain ⟨m, sa⟩ := pr
          simp only [h1] at h
          cases h2 : applys f env tmap sa as with
          | error e => simp only [h2] at h; cases h
          | ok pr2 =>
            obtain ⟨ms, sb⟩ := pr2
            simp only [h2] at h
            cases h
            obtain ⟨t₁, ht₁⟩ := ihaS h1 (Extends.trans (Es h2) hext)
            obtain ⟨t₂, ht₂⟩ := ihsS h2 (Extends.trans hext (Ea ht₁))
            exact ⟨t₂, by simp only [applys, ht₁, ht₂]⟩
    · -- apply_variants
      intro tmap s vtss rs s' t h hext
      cases vtss with
      | nil =>
        simp only [apply_variants] at h
        cases h
        exact ⟨t, by simp only [apply_variants]⟩
      | cons v vs =>
        simp only [apply_variants] at h
        cases h1 : applys f env tmap s v with
        | error e => simp only [h1] at h; cases h
        | ok pr =>
          obtain ⟨mv, sa⟩ := pr
          simp only [h1] at h
          cases h2 : apply_variants f env tmap sa vs with
          | error e => simp only [h2] at h; cases h
          | ok pr2 =>
            obtain ⟨mvs, sb⟩ := pr2
            simp only [h2] at h
            cases h
            obtain ⟨t₁, ht₁⟩ := ihsS h1 (Extends.trans (Ev h2) hext)
            obtain ⟨t₂, ht₂⟩ := ihvS h2 (Extends.trans hext (Es ht₁))
            exact ⟨t₂, by simp only [apply_variants, ht₁, ht₂]⟩
    · -- method_to_fnptr
      intro tmap s module func r s' t h hext
      unfold method_to_fnptr at h
      simp only at h
      cases h1 : applys f env tmap s (env.funcs ⟨module, func⟩).1 with
      | error e => simp only [h1] at h; cases h
      | ok pr =>
        obtain ⟨ptypes, s₁⟩ := pr
        simp only [h1] at h
        cases h2 : apply f env tmap s₁ (env.funcs ⟨module, func⟩).2 with
        | error e => simp only [h2] at h; cases h
        | ok pr2 =>
          obtain ⟨ret, s₂⟩ := pr2
          simp only [h2] at h
          cases h
          obtain ⟨t₁, ht₁⟩ := ihsS h1 (Extends.trans (Ea h2) hext)
          obtain ⟨t₂, ht₂⟩ := ihaS h2 (Extends.trans hext (Es ht₁))
          refine ⟨t₂, ?_⟩
          unfold method_to_fnptr
          simp only [ht₁, ht₂]
    · -- methods_to_fnptrs
      intro tmap s module ms rs s' t h hext
      cases ms with
      | nil =>
        simp only [methods_to_fnptrs] at h
        cases h
        exact ⟨t, by simp only [methods_to_fnptrs]⟩
      | cons m mrest =>
        simp only [methods_to_fnptrs] at h
        cases h1 : method_to_fnptr f env tmap s module m with
        | error e => simp only [h1] at h; cases h
        | ok pr =>
          obtain ⟨p, sa⟩ := pr
          simp only [h1] at h
          cases h2 : methods_to_fnptrs f env tmap sa module mrest with
          | error e => simp only [h2] at h; cases h
          | ok pr2 =>
            obtain ⟨ps, sb⟩ := pr2
            simp only [h2] at h
            cases h
            have Ems : ∀ {tmap s module ms rs s'}, methods_to_fnptrs f env tmap s module ms =
                .ok (rs, s') → Extends s s' := (engine_extends env f).2.2.2.2.2.1
            obtain ⟨t₁, ht₁⟩ := ihmS h1 (Extends.trans (Ems h2) hext)
            obtain ⟨t₂, ht₂⟩ := ihmsS h2 (Extends.trans hext (Em ht₁))
            exact ⟨t₂, by simp only [methods_to_fnptrs, ht₁, ht₂]⟩
    · -- record
      intro tmap s key params mk s' t h hext
      unfold record at h
      cases h1 : applys f env tmap s params with
      | error e => simp only [h1] at h; cases h
      | ok pr =>
        obtain ⟨mparams, s₁⟩ := pr
        simp only [h1] at h
        have hor := record_orbody_extends env f key
        have hown := get_or_monomorphise_own_key hor h
        have egom : Extends s₁ s' := get_or_monomorphise_extends hor h
        obtain ⟨t₁, ht₁⟩ := ihsS h1 (Extends.trans egom hext)
        have hk : alookup ((⟨key.module, TypeKind.record key.value⟩ : M TypeKind),
            mparams) t₁.resolve = some mk :=
          (Extends.trans hext (Es ht₁)).1 _ _ hown
        refine ⟨t₁, ?_⟩
        unfold record
        rw [ht₁]
        unfold get_or_monomorphise
        simp only
        rw [hk]
    · -- sum
      intro tmap s key params mk s' t h hext
      unfold sum at h
      cases h1 : applys f env tmap s params with
      | error e => simp only [h1] at h; cases h
      | ok pr =>
        obtain ⟨mparams, s₁⟩ := pr
        simp only [h1] at h
        have hor := sum_orbody_extends env f key
        have hown := get_or_monomorphise_own_key hor h
        have egom : Extends s₁ s' := get_or_monomorphise_extends hor h
        obtain ⟨t₁, ht₁⟩ := ihsS h1 (Extends.trans egom hext)
        have hk : alookup ((⟨key.module, TypeKind.sum key.value⟩ : M TypeKind),
            mparams) t₁.resolve = some mk :=
          (Extends.trans hext (Es ht₁)).1 _ _ hown
        refine ⟨t₁, ?_⟩
        unfold sum
        rw [ht₁]
        unfold get_or_monomorphise
        simp only
        rw [hk]
    · -- trait_object
      intro s trait_ mparams mk s' t h hext
      have hk := hext.1 _ _ (trait_object_own_key h)
      refine ⟨t, ?_⟩
      unfold trait_object
      simp only
      rw [hk]

/-! ## Own-key lemmas for the nominal entry points -/

theorem record_own_key {f : Nat} {env : Env} {tmap : TypeMap} {s : MonoState} {key : M Nat}
    {params : List Ty} {mk : Nat} {s' : MonoState}
    (h : record f env tmap s key params = .ok (mk, s')) :
    ∃ mp, alookup ((⟨key.module, TypeKind.record key.value⟩ : M TypeKind), mp)
      s'.resolve = some mk := by
  match f with
  | 0 => simp [record] at h
  | f + 1 =>
    unfold record at h
    cases h1 : applys f env tmap s params with
    | error e => simp only [h1] at h; cases h
    | ok pr =>
      obtain ⟨mp, s₁⟩ := pr
      simp only [h1] at h
      exact ⟨mp, get_or_monomorphise_own_key (record_orbody_extends env f key) h⟩

theorem sum_own_key {f : Nat} {env : Env} {tmap : TypeMap} {s : MonoState} {key : M Nat}
    {params : List Ty} {mk : Nat} {s' : MonoState}
    (h : sum f env tmap s key params = .ok (mk, s')) :
    ∃ mp, alookup ((⟨key.module, TypeKind.sum key.value⟩ : M TypeKind), mp)
      s'.resolve = some mk := by
  match f with
  | 0 => simp [sum] at h
  | f + 1 =>
    unfold sum at h
    cases h1 : applys f env tmap s params with
    | error e => simp only [h1] at h; cases h
    | ok pr =>
      obtain ⟨mp, s₁⟩ := pr
      simp only [h1] at h
      exact ⟨mp, get_or_monomorphise_own_key (sum_orbody_extends env f key) h⟩

/-! ## Projections of the invariant -/

theorem resolve_nodup {s : MonoState} (hinv : EngineInv s) :
    (s.resolve.map (fun p => p.2)).Nodup := by
  have h := hinv.1
  unfold state_vals resolve_vals at h
  exact (List.nodup_append.mp h).1

theorem tuples_nodup {s : MonoState} (hinv : EngineInv s) :
    (s.tuples.map (fun p => p.2)).Nodup := by
  have h := hinv.1
  unfold state_vals tuple_vals at h
  exact (List.nodup_append.mp h).2.1

theorem resolve_tuples_disjoint {s : MonoState} (hinv : EngineInv s) {v : Nat}
    (h₁ : v ∈ s.resolve.map (fun p => p.2)) (h₂ : v ∈ s.tuples.map (fun p => p.2)) :
    False := by
  have h := hinv.1
  unfold state_vals resolve_vals tuple_vals at h
  exact (List.nodup_append.mp h).2.2 h₁ h₂

/-! ## list_max lemmas -/

theorem list_max_perm {l₁ l₂ : List Nat} (h : l₁.Perm l₂) : list_max l₁ = list_max l₂ := by
  induction h with
  | nil => rfl
  | cons x h ih => simp only [list_max, ih]
  | swap x y l =>
    simp only [list_max]
    cases list_max l with
    | none => simp [Nat.max_comm]
    | some m => simp [Nat.max_left_comm]
  | trans h₁ h₂ ih₁ ih₂ => exact ih₁.trans ih₂

theorem list_max_spec : ∀ {l : List Nat} {n : Nat}, list_max l = some n →
    n ∈ l ∧ ∀ m ∈ l, m ≤ n := by
  intro l
  induction l with
  | nil => intro n h; cases h
  | cons x xs ih =>
    intro n h
    simp only [list_max] at h
    cases hx : list_max xs with
    | none =>
      rw [hx] at h
      cases h
      refine ⟨List.mem_cons_self x xs, ?_⟩
      intro m hm
      rcases List.mem_cons.mp hm with rfl | hm
      · exact Nat.le_refl _
      · cases xs with
        | nil => cases hm
        | cons b bs =>
          simp only [list_max] at hx
          cases hxb : list_max bs <;> simp [hxb] at hx
    | some m' =>
      rw [hx] at h
      cases h
      obtain ⟨hmem, hle⟩ := ih hx
      constructor
      · rcases Nat.le_total x m' with hc | hc
        · rw [Nat.max_eq_right hc]
          exact List.mem_cons_of_mem _ hmem
        · rw [Nat.max_eq_left hc]
          exact List.mem_cons_self x xs
      · intro m hm
        rcases List.mem_cons.mp hm with rfl | hm
        · exact Nat.le_max_left _ _
        · exact Nat.le_trans (hle m hm) (Nat.le_max_right _ _)

/-! ## Claim C1 -/

/-- C1: instantiation is globally memoized.  A successful `record`, `sum` or
`trait_object` instantiation re-run from its own final state returns the same
layout key; a structurally identical tuple re-interned from the final state
returns the same key and leaves the state untouched; and in any state
satisfying the engine invariant (which `engine_inv` shows every run preserves,
and which holds at `init_state`), two distinct nominal
`(type identity, argument list)` memo keys never share a layout key, two
distinct tuple shapes never share a layout key, and a nominal key never
collides with a tuple key. -/
theorem C1_memoization :
    (∀ f env tmap (s : MonoState) key params mk s',
       record f env tmap s key params = .ok (mk, s') →
       ∃ t', record f env tmap s' key params = .ok (mk, t')) ∧
    (∀ f env tmap (s : MonoState) key params mk s',
       sum f env tmap s key params = .ok (mk, s') →
       ∃ t', sum f env tmap s' key params = .ok (mk, t')) ∧
    (∀ f env (s : MonoState) trait_ mparams mk s',
       trait_object f env s trait_ mparams = .ok (mk, s') →
       ∃ t', trait_object f env s' trait_ mparams = .ok (mk, t')) ∧
    (∀ f g (s : MonoState) elems k s',
       get_or_make_tuple f s elems = .ok (k, s') →
       get_or_make_tuple g s' elems = .ok (k, s')) ∧
    (∀ s : MonoState, EngineInv s → ∀ k₁ k₂ v₁ v₂,
       alookup k₁ s.resolve = some v₁ → alookup k₂ s.resolve = some v₂ →
       k₁ ≠ k₂ → v₁ ≠ v₂) ∧
    (∀ s : MonoState, EngineInv s → ∀ e₁ e₂ v₁ v₂,
       alookup e₁ s.tuples = some v₁ → alookup e₂ s.tuples = some v₂ →
       e₁ ≠ e₂ → v₁ ≠ v₂) ∧
    (∀ s : MonoState, EngineInv s → ∀ k e v₁ v₂,
       alookup k s.resolve = some v₁ → alookup e s.tuples = some v₂ →
       v₁ ≠ v₂) ∧
    EngineInv init_state := by
  refine ⟨?_, ?_, ?_, ?_, ?_, ?_, ?_, ?_⟩
  · intro f env tmap s key params mk s' h
    exact (engine_stable env f).2.2.2.2.2.2.1 h (Extends.refl s')
  · intro f env tmap s key params mk s' h
    exact (engine_stable env f).2.2.2.2.2.2.2.1 h (Extends.refl s')
  · intro f env s trait_ mparams mk s' h
    exact (engine_stable env f).2.2.2.2.2.2.2.2 h (Extends.refl s')
  · intro f g s elems k s' h
    exact get_or_make_tuple_stable h (Extends.refl s')
  · intro s hinv k₁ k₂ v₁ v₂ h₁ h₂ hne hv
    subst hv
    exact hne (alookup_inj_of_nodup (resolve_nodup hinv) h₁ h₂)
  · intro s hinv e₁ e₂ v₁ v₂ h₁ h₂ hne hv
    subst hv
    exact hne (alookup_inj_of_nodup (tuples_nodup hinv) h₁ h₂)
  · intro s hinv k e v₁ v₂ h₁ h₂ hv
    subst hv
    exact resolve_tuples_disjoint hinv (alookup_value_mem h₁) (alookup_value_mem h₂)
  · exact ⟨by decide, by decide, by decide⟩

/-- C1 witness: two concrete trait-object instantiations from `init_state`.
The first (trait `(0,1)`) yields key 1; re-running it from the final state
yields key 1 again, and the distinct identity `(0,2)` yields the distinct
key 2 by the no-collision conjunct. -/
theorem C1_memoization_witness :
    (∃ t', trait_object 10 one_method_trait_env c1_s1 ⟨0, 1⟩ [] = Except.ok (1, t')) ∧
    (1 : Nat) ≠ 2 :=
  ⟨C1_memoization.2.2.1 10 one_method_trait_env init_state ⟨0, 1⟩ [] 1 c1_s1 (by rfl),
   C1_memoization.2.2.2.2.1 c1_s2 ⟨by decide, by decide, by decide⟩
     ((⟨0, TypeKind.trait 1⟩ : M TypeKind), ([] : List MonoType))
     ((⟨0, TypeKind.trait 2⟩ : M TypeKind), ([] : List MonoType))
     1 2 (by decide) (by decide) (by decide)⟩

/-! ## Claim C3 -/

/-- C3: every sum instantiation produces a two-field layout.  At the memo
level, every key returned by `sum` from an invariant-satisfying state points
at a record of sum shape (tag `Int TAG_SIZE` plus `SumDataCast` payload, or a
still-in-progress placeholder).  A fresh run either hits the memo or patches
its key with a record whose fields are exactly
`[Int TAG_SIZE, SumDataCast largest]`, where `largest` is `list_max` of the
per-variant field-width sums of the monomorphised variants.  `list_max` is
invariant under permutation of the variant list and returns an attained upper
bound, so the payload width is the maximum over all variants, independent of
declaration order.  The tag is the unsigned default `TAG_SIZE = u32`
unconditionally: the source carries no size/representation directive, so the
directive clause of the claim never fires.  The concrete scenario with
variant field-width sums 0, 32 and 96 yields fields
`[Int u32, SumDataCast 96]`. -/
theorem C3_sum_layout :
    (∀ f env tmap (s : MonoState) key params mk s', EngineInv s →
       sum f env tmap s key params = .ok (mk, s') →
       ∃ r, s'.types[mk]? = some r ∧ record_sum_shape r = true) ∧
    (∀ f env tmap (s : MonoState) key params mk s',
       sum (f + 1) env tmap s key params = .ok (mk, s') →
       ∃ mparams s₁, applys f env tmap s params = .ok (mparams, s₁) ∧
         (alookup ((⟨key.module, TypeKind.sum key.value⟩ : M TypeKind), mparams)
             s₁.resolve = some mk ∨
          ∃ tmap' s₂ variants s₃ sums largest rcd,
            apply_variants f env tmap' s₂ (env.variant_types key) = .ok (variants, s₃) ∧
            variant_sums f s₃.types variants = .ok sums ∧
            list_max sums = some largest ∧
            rcd.fields = [MonoType.int TAG_SIZE, MonoType.sumDataCast largest] ∧
            s'.types[mk]? = some rcd)) ∧
    (∀ sums₁ sums₂ : List Nat, sums₁.Perm sums₂ → list_max sums₁ = list_max sums₂) ∧
    (∀ sums largest, list_max sums = some largest →
       largest ∈ sums ∧ ∀ w ∈ sums, w ≤ largest) ∧
    TAG_SIZE = IntSize.new false 32 ∧
    (match c3_run with
     | .ok p => (match p.2.types[p.1]? with
                 | some r => some r.fields
                 | none => none)
     | .error _ => none) = some [MonoType.int TAG_SIZE, MonoType.sumDataCast 96] := by
  refine ⟨?_, ?_, ?_, ?_, rfl, by decide⟩
  · intro f env tmap s key params mk s' hinv h
    have hinv' : EngineInv s' := (engine_inv env f).2.2.2.2.2.2.2.1 hinv h
    obtain ⟨mp, hk⟩ := sum_own_key h
    have hok := hinv'.2.2 _ (alookup_mem hk)
    unfold entry_sum_ok at hok
    dsimp only at hok
    cases hg : s'.types[mk]? with
    | none => rw [hg] at hok; cases hok
    | some r =>
      rw [hg] at hok
      exact ⟨r, rfl, hok⟩
  · intro f env tmap s key params mk s' h
    unfold sum at h
    cases h1 : applys f env tmap s params with
    | error e => simp only [h1] at h; cases h
    | ok pr =>
      obtain ⟨mparams, s₁⟩ := pr
      simp only [h1] at h
      unfold get_or_monomorphise at h
      simp only at h
      split at h
      · rename_i k₀ hl
        cases h
        exact ⟨mparams, _, rfl, .inl hl⟩
      · rename_i hl
        split at h
        · cases h
        · rename_i rcd s₂ hb
          split at h
          · cases h
          · rename_i cur hg
            split at h
            · cases h
              refine ⟨mparams, _, rfl, .inr ?_⟩
              split at hb
              · cases hb
              · rename_i variants s₃ hvar
                split at hb
                · cases hb
                · rename_i sums hsums
                  split at hb
                  · cases hb
                  · rename_i largest hmax
                    split at hb
                    · cases hb
                    · rename_i rcd' hcon
                      cases hb
                      have hlt : s₁.types.length < s₂.types.length :=
                        (List.getElem?_eq_some.mp hg).1
                      exact ⟨_, _, variants, _, sums, largest, rcd, hvar, hsums, hmax,
                        (construct_parts hcon).1, by
                          simp only
                          exact List.getElem?_set_self hlt⟩
            · cases h
  · exact fun _ _ h => list_max_perm h
  · exact fun _ _ h => list_max_spec h

/-- C3 witness: the concrete sum run returns key 1, and that key's record has
the tag-plus-payload shape. -/
theorem C3_sum_layout_witness :
    ∃ r, c3_s.types[1]? = some r ∧ record_sum_shape r = true :=
  C3_sum_layout.1 10 sum_env TypeMap.new init_state ⟨0, 0⟩ [] 1 c3_s
    ⟨by decide, by decide, by decide⟩ (by rfl)

/-! ## Claim C7 -/

theorem sum_sizes_snoc {f : Nat} {types : List MonomorphisedRecord} :
    ∀ {l : List MonoType} {t : MonoType} {a b : Nat},
      sum_sizes f types l = .ok a → size_of f types t = .ok b →
      sum_sizes f types (l ++ [t]) = .ok (a + b) := by
  intro l
  induction l with
  | nil =>
    intro t a b hl ht
    simp only [sum_sizes] at hl
    cases hl
    simp [sum_sizes, ht]
  | cons u us ih =>
    intro t a b hl ht
    simp only [sum_sizes] at hl
    cases hu : size_of f types u with
    | error e => simp [hu] at hl
    | ok x =>
      cases hus : sum_sizes f types us with
      | error e => simp [hu, hus] at hl
      | ok y =>
        simp only [hu, hus] at hl
        cases hl
        have hih : sum_sizes f types (us.append [t]) = Except.ok (y + b) := ih hus ht
        simp only [List.cons_append, sum_sizes, hu, hih]
        rw [Nat.add_assoc]

theorem field_offset_sum_take {f : Nat} {types : List MonomorphisedRecord}
    {fields : List MonoType} : ∀ {i w : Nat},
    field_offset_sum f types fields i = .ok w →
    i ≤ fields.length ∧ sum_sizes f types (fields.take i) = .ok w := by
  intro i
  induction i with
  | zero =>
    intro w h
    simp only [field_offset_sum] at h
    cases h
    exact ⟨Nat.zero_le _, rfl⟩
  | succ i ih =>
    intro w h
    simp only [field_offset_sum] at h
    cases hrec : field_offset_sum f types fields i with
    | error e => simp [hrec] at h
    | ok acc =>
      cases hfi : fields[i]? with
      | none => simp [hrec, hfi] at h
      | some ty =>
        cases hsz : size_of f types ty with
        | error e => simp [hrec, hfi, hsz] at h
        | ok w' =>
          simp only [hrec, hfi, hsz] at h
          cases h
          obtain ⟨hle, hsum⟩ := ih hrec
          have hlt : i < fields.length := (List.getElem?_eq_some.mp hfi).1
          refine ⟨hlt, ?_⟩
          rw [List.take_succ, hfi]
          simpa using sum_sizes_snoc hsum hsz

/-- C7: querying a field's byte offset panics exactly when the record has any
autoboxed field.  With at least one autoboxed field `Records::field_offset`
panics; with none, the returned offset is the sum of the sizes of all fields
preceding the queried field (`sum_sizes` over `fields.take field`, for either
representation); a dangling layout key also panics. -/
theorem C7_field_offset :
    (∀ f types ty field r, types[ty]? = some r → r.autoboxed ≠ [] →
       field_offset f types ty field = .error .panic) ∧
    (∀ f types ty field r w, types[ty]? = some r → r.autoboxed = [] →
       field_offset f types ty field = .ok w →
       field ≤ r.fields.length ∧ sum_sizes f types (r.fields.take field) = .ok w) ∧
    (∀ f (types : List MonomorphisedRecord) ty field, types[ty]? = none →
       field_offset f types ty field = .error .panic) := by
  refine ⟨?_, ?_, ?_⟩
  · intro f types ty field r hg hab
    unfold field_offset
    simp only [hg]
    rw [if_neg hab]
  · intro f types ty field r w hg hab h
    unfold field_offset at h
    simp only [hg] at h
    rw [if_pos hab] at h
    split at h
    · exact field_offset_sum_take h
    · exact field_offset_sum_take h
  · intro f types ty field hg
    unfold field_offset
    simp only [hg]

/-- C7 witness: the one-autoboxed-field record panics at offset 0; the plain
record's field 1 sits at offset 64 = the size of the preceding `i64` field. -/
theorem C7_field_offset_witness :
    field_offset 2 [c7_boxed] 0 0 = .error .panic ∧
    (1 ≤ c7_plain.fields.length ∧
      sum_sizes 2 [c7_plain] (c7_plain.fields.take 1) = .ok 64) :=
  ⟨C7_field_offset.1 2 [c7_boxed] 0 0 c7_boxed (by rfl) (by decide),
   C7_field_offset.2.1 2 [c7_plain] 0 1 c7_plain 64 (by rfl) (by rfl) (by rfl)⟩

/-! ## Claim C10 -/

/-- C10: all pointer-sized quantities in layout computation are fixed
constants, independent of any target descriptor (no target parameter even
exists in these functions).  `size_of_ty` returns 64 bits for `Pointer`,
`FnPointer` and `Float` types and for a `SumDataCast` payload viewed as a
pointer; every trait/closure object record patched by
`trait_object_from_vtable` has size `64 * 2 = 128` bits; and a
still-placeholder (`u32::MAX`-sized) record whose original is not a sum is
sized as a 64-bit pointer. -/
theorem C10_pointer_sizes :
    (∀ f types (p : MonoType) b, size_of_ty (f + 1) types (.pointer p) b = .ok 64) ∧
    (∀ f types ps ret b, size_of_ty (f + 1) types (.fnPointer ps ret) b = .ok 64) ∧
    (∀ f types b, size_of_ty (f + 1) types .float b = .ok 64) ∧
    (∀ f types w, size_of (f + 1) types (MonoType.sumDataCast w) = .ok 64) ∧
    (∀ s key dst vt s', trait_object_from_vtable s key dst vt = .ok s' →
       ∃ r, s'.types[dst]? = some r ∧ r.size = 64 * 2) ∧
    (∀ f types key r, types[key]? = some r → r.size = u32Max →
       (∀ m sk, r.original ≠ some ⟨m, TypeKind.sum sk⟩) →
       size_of_defined (f + 2) types key = .ok 64) := by
  refine ⟨?_, ?_, ?_, ?_, ?_, ?_⟩
  · intro f types p b
    simp [size_of_ty]
  · intro f types ps ret b
    simp [size_of_ty]
  · intro f types b
    simp [size_of_ty]
  · intro f types w
    simp [size_of, size_of_ty]
  · intro s key dst vt s' h
    obtain ⟨rfl, hlt⟩ := trait_object_from_vtable_ok h
    exact ⟨_, List.getElem?_set_self hlt, rfl⟩
  · intro f types key r hg hsz hns
    unfold size_of_defined
    simp only [hg]
    rw [if_pos hsz]
    cases ho : r.original with
    | none => simp [ho, size_of_ty, MonoType.u8_pointer]
    | some k =>
      obtain ⟨m, v⟩ := k
      cases v with
      | sum sk => exact absurd ho (hns m sk)
      | record rk => simp [ho, size_of_ty, MonoType.u8_pointer]
      | trait tk => simp [ho, size_of_ty, MonoType.u8_pointer]

/-- C10 witness: a placeholder record with no original is sized as the
64-bit pointer constant. -/
theorem C10_pointer_sizes_witness :
    size_of_defined 2 [MonomorphisedRecord.placeholder] 0 = .ok 64 :=
  C10_pointer_sizes.2.2.2.2.2 0 [MonomorphisedRecord.placeholder] 0
    MonomorphisedRecord.placeholder (by rfl) (by rfl) (by intro m sk h; cases h)

/-! ## Claim C8 -/

/-- C8: on every hosted target (gnu or musl linux), the synthesized entry
point is an exported function named `main` with signature
`(i32 argc, ptr argv) -> i64`, whose body in order calls the
value-initializer runner with no arguments, the system initializer with the
raw `argc`/`argv` block parameters, the program's main function, and then
materializes the constant 0 and returns it as the exit code. -/
theorem C8_entrypoint :
    ∀ sub verifies, sub = LinuxPlatform.gnu ∨ sub = LinuxPlatform.musl →
      (declare_entrypoint sub verifies).1 =
        { name := "main", linkage := .exportL,
          sigParams := [.i32, .ptr], sigReturns := [.i64],
          body := [.call .valInits [], .call .sysInit [.argc, .argv],
                   .call .luminaMain [], .iconst .i64 0, .ret [.result 3]] } := by
  intro sub verifies h
  rcases h with rfl | rfl <;> rfl

/-- C8 witness: the gnu entry point is exactly that exported `main`. -/
theorem C8_entrypoint_witness :
    (declare_entrypoint LinuxPlatform.gnu true).1 =
      { name := "main", linkage := .exportL,
        sigParams := [.i32, .ptr], sigReturns := [.i64],
        body := [.call .valInits [], .call .sysInit [.argc, .argv],
                 .call .luminaMain [], .iconst .i64 0, .ret [.result 3]] } :=
  C8_entrypoint LinuxPlatform.gnu true (Or.inl rfl)

/-! ## Claim C9 -/

/-- C9 (amended): every synthesized body is verified before it is defined —
the event stream starts with the verifier and ends with `define_function`,
and both entry-point arms share the same tail — but a verification failure
is NOT fatal: it is logged with `error!` and emission proceeds; no abort
event exists on any path. -/
theorem C9_verify_logs_and_proceeds :
    ∀ verifies : Bool,
      (declare_val_run_and_store_events verifies).head? = some .verifyFn ∧
      (declare_val_run_and_store_events verifies).getLast? = some .defineFn ∧
      EmitEvent.abortPanic ∉ declare_val_run_and_store_events verifies ∧
      (verifies = false →
        EmitEvent.logError ∈ declare_val_run_and_store_events verifies) ∧
      ∀ sub, (declare_entrypoint sub verifies).2 =
        declare_val_run_and_store_events verifies := by
  intro verifies
  cases verifies with
  | false =>
    exact ⟨by decide, by decide, by decide, (fun _ => by decide),
      (fun sub => by cases sub <;> rfl)⟩
  | true =>
    exact ⟨by decide, by decide, by decide, (fun h => by cases h),
      (fun sub => by cases sub <;> rfl)⟩

/-- C9 counterexample to the claim as written: on a verifier failure the
event stream is verify, log, define — `define_function` still runs and no
abort occurs, so emission proceeds. -/
theorem C9_verify_failure_cex :
    declare_val_run_and_store_events false = [.verifyFn, .logError, .defineFn] ∧
    EmitEvent.defineFn ∈ declare_val_run_and_store_events false ∧
    EmitEvent.abortPanic ∉ declare_val_run_and_store_events false := by
  decide

/-! ## Claim C6 -/

/-- C6: for a closure over a parameter tuple, the dispatch slot of the
closure object is a single function pointer whose parameter list is the
receiver pointer followed by each tuple element individually (the tuple
record's field list is splatted), not the tuple as one aggregate parameter.
Generally: a fresh `trait_object` run on the closure trait with
`[tuple key, ret]` produces a two-field object whose second field is
`FnPointer (u8 pointer :: tuple.fields) ret`.  Concretely, a closure over
`(Int32, Float)` returning `Int32` gets dispatch type
`(u8 pointer, Int32, Float) -> Int32`, which differs from the aggregate form
`(u8 pointer, tuple) -> Int32`. -/
theorem C6_closure_splat :
    (∀ f env (s : MonoState) trait_ tk (ret : MonoType) tr mk s',
       trait_ = env.closure →
       alookup ((⟨trait_.module, TypeKind.trait trait_.value⟩ : M TypeKind),
         [MonoType.monomorphised tk, ret]) s.resolve = none →
       s.types[tk]? = some tr →
       trait_object (f + 1) env s trait_ [MonoType.monomorphised tk, ret] = .ok (mk, s') →
       ∃ r, s'.types[mk]? = some r ∧
         r.fields = [MonoType.u8_pointer,
           MonoType.fnPointer (MonoType.u8_pointer :: tr.fields) ret]) ∧
    (match c6_run with
     | .ok p => (match p.2.types[p.1]? with
                 | some r => some r.fields
                 | none => none)
     | .error _ => none) =
      some [MonoType.u8_pointer,
        MonoType.fnPointer [MonoType.u8_pointer, MonoType.int (IntSize.new true 32),
          MonoType.float] (MonoType.int (IntSize.new true 32))] ∧
    MonoType.fnPointer [MonoType.u8_pointer, MonoType.int (IntSize.new true 32),
        MonoType.float] (MonoType.int (IntSize.new true 32)) ≠
      MonoType.fnPointer [MonoType.u8_pointer, MonoType.monomorphised 1]
        (MonoType.int (IntSize.new true 32)) := by
  refine ⟨?_, by decide, by decide⟩
  intro f env s trait_ tk ret tr mk s' hcl hmiss htk h
  have hlt : tk < s.types.length := (List.getElem?_eq_some.mp htk).1
  unfold trait_object at h
  simp only at h
  rw [hmiss] at h
  simp only at h
  rw [if_pos hcl] at h
  have hga : (s.types ++ [MonomorphisedRecord.placeholder])[tk]? = some tr := by
    rw [List.getElem?_append, if_pos hlt]
    exact htk
  simp only [hga] at h
  split at h
  · rename_i s₃ htof
    cases h
    obtain ⟨rfl, hlt2⟩ := trait_object_from_vtable_ok htof
    exact ⟨_, List.getElem?_set_self hlt2, rfl⟩
  · cases h

/-- C6 witness: the general splat characterization applied at the concrete
`(Int32, Float) -> Int32` closure: record key 2 holds the receiver pointer
plus the splatted dispatch function pointer. -/
theorem C6_closure_splat_witness :
    ∃ r, c6_s2.types[2]? = some r ∧
      r.fields = [MonoType.u8_pointer,
        MonoType.fnPointer (MonoType.u8_pointer :: c6_tr.fields)
          (MonoType.int (IntSize.new true 32))] :=
  C6_closure_splat.1 9 closure_env c6_s closure_trait 1
    (MonoType.int (IntSize.new true 32)) c6_tr 2 c6_s2
    (by rfl) (by decide) (by rfl) (by rfl)

/-! ## Claim C2 -/

/-- C2 (code bug): instantiating the directly self-referential node record
(`{ next: i64, tail: Node }`) does terminate and does produce a finite size
(128 bits, far below the `u32::MAX` placeholder sentinel), and its tail
field is monomorphised to the record's own layout key 1 — yet the autoboxed
set comes out EMPTY, not `[1]` as the claim requires.  The code's own
recursion detector, run on the final arena (where `original` has been
patched in), confirms the field is self-referential; during `construct`,
however, the detector ran against the still-placeholder entry whose
`original` is `None`, so no field was ever flagged. -/
theorem C2_autobox_bug :
    (match c2_run with
     | .ok p => some (p.1, p.2.types[p.1]?)
     | .error _ => none) = some (1, some node_layout) ∧
    node_layout.size = 128 ∧
    node_layout.size < u32Max ∧
    node_layout.fields = [MonoType.int (IntSize.new true 64), MonoType.monomorphised 1] ∧
    field_is_recursive 5 c2_s.types ⟨0, TypeKind.record 0⟩ (MonoType.monomorphised 1) =
      .ok true ∧
    node_layout.autoboxed = [] ∧
    ([] : List Nat) ≠ [1] := by
  refine ⟨by decide, rfl, by decide, rfl, by rfl, rfl, by decide⟩

/-! ## Claim C5 -/

/-- C5: appending a value to a block whose terminator is already set, or
setting a block's terminator a second time, fails fatally (the builder's
panic, modelled as `none`); while creating a fresh block, appending values
to it and sealing it exactly once succeeds, after which both a further
append and a further seal fail. -/
theorem C5_sealed_blocks :
    (∀ (b : Blocks) entry ty bb, b.blocks[b.current]? = some bb →
       bb.tail.isUnreachable = false → b.assign entry ty = none) ∧
    (∀ (b : Blocks) flow bb, b.blocks[b.current]? = some bb →
       bb.tail.isUnreachable = false → b.set_tail flow = none) ∧
    (∀ (b : Blocks) fl fl₂ b₁, b.set_tail fl = some b₁ →
       fl.isUnreachable = false → b₁.set_tail fl₂ = none) ∧
    (run_ops (Blocks.new []) c5_ops).isSome = true ∧
    run_ops (Blocks.new []) (c5_ops ++ [.assignOp (.construct []) .float]) = none ∧
    run_ops (Blocks.new []) (c5_ops ++ [.setTailOp (.ret (.v 0))]) = none := by
  have hset : ∀ (b : Blocks) flow bb, b.blocks[b.current]? = some bb →
      bb.tail.isUnreachable = false → b.set_tail flow = none := by
    intro b flow bb hg hseal
    unfold Blocks.set_tail
    simp only [hg]
    rw [if_neg (by simp [hseal])]
  refine ⟨?_, hset, ?_, rfl, rfl, rfl⟩
  · intro b entry ty bb hg hseal
    unfold Blocks.assign
    simp only
    by_cases hlen : b.vtypes.length ≠ b.ventries.length
    · rw [if_pos hlen]
    · rw [if_neg hlen]
      simp only [hg]
      rw [if_pos hseal]
  · intro b fl fl₂ b₁ h hfl
    unfold Blocks.set_tail at h
    cases hg : b.blocks[b.current]? with
    | none => simp [hg] at h
    | some bb =>
      simp only [hg] at h
      split at h
      · cases h
        have hlt : b.current < b.blocks.length := (List.getElem?_eq_some.mp hg).1
        refine hset _ fl₂ { bb with tail := fl } ?_ ?_
        · show (b.blocks.set b.current { bb with tail := fl })[b.current]? = _
          exact List.getElem?_set_self hlt
        · exact hfl
      · cases h

/-- C5 witness: the sealed block 1 of the concrete successful run rejects a
further append. -/
theorem C5_sealed_blocks_witness :
    c5_sealed.assign (.construct []) .float = none :=
  C5_sealed_blocks.1 c5_sealed (.construct []) .float
    ⟨[], some (0, 2), .ret (.v 1)⟩ (by rfl) (by rfl)

/-! ## Claim C4: the in-order building discipline -/

theorem inv4_congr {s t : Blocks} (h : ∀ i, block_range t i = block_range s i)
    (hv : t.ventries.length = s.ventries.length) (hs : Inv4 s) : Inv4 t := by
  obtain ⟨hA, hB, hC⟩ := hs
  refine ⟨?_, ?_, ?_⟩
  · intro i st en hi
    rw [h i] at hi
    rw [hv]
    exact hA i st en hi
  · intro i j sti eni stj enj hij hi hj
    rw [h i] at hi
    rw [h j] at hj
    exact hB i j sti eni stj enj hij hi hj
  · intro i st en hi habove
    rw [h i] at hi
    rw [hv]
    refine hC i st en hi ?_
    intro j hj
    rw [← h j]
    exact habove j hj

theorem block_range_set {b : Blocks} {k : Nat} {bb bb' : BasicBlock}
    (hg : b.blocks[k]? = some bb) (hoff : bb'.offset = bb.offset) :
    ∀ i, block_range { b with blocks := b.blocks.set k bb' } i = block_range b i := by
  intro i
  unfold block_range
  simp only
  by_cases hik : i = k
  · subst hik
    rw [List.getElem?_set_self (List.getElem?_eq_some.mp hg).1, hg]
    simp [hoff]
  · rw [List.getElem?_set_ne (fun he => hik he.symm)]

theorem block_range_append {b : Blocks} {nb : BasicBlock} (hnb : nb.offset = none) :
    ∀ i, block_range { b with blocks := b.blocks ++ [nb] } i = block_range b i := by
  intro i
  unfold block_range
  simp only
  rw [List.getElem?_append]
  by_cases hi : i < b.blocks.length
  · rw [if_pos hi]
  · rw [if_neg hi]
    rw [List.getElem?_eq_none (Nat.le_of_not_lt hi)]
    cases hd : i - b.blocks.length with
    | zero => simp [hd, hnb]
    | succ n => simp [hd]

theorem not_populated_above {b : Blocks} (h : populated_above b = false) :
    ∀ j, b.current < j → block_range b j = none := by
  intro j hj
  unfold populated_above at h
  rw [List.any_eq_false] at h
  unfold block_range
  cases hg : b.blocks[j]? with
  | none => rfl
  | some bb =>
    show bb.offset = none
    have hmem : bb ∈ b.blocks.drop (b.current + 1) := by
      have hidx : (b.blocks.drop (b.current + 1))[j - (b.current + 1)]? = some bb := by
        rw [List.getElem?_drop]
        have harith : b.current + 1 + (j - (b.current + 1)) = j := by omega
        rw [harith]
        exact hg
      exact List.getElem?_mem hidx
    have hfalse := h bb hmem
    cases ho : bb.offset with
    | none => rfl
    | some p =>
      rw [ho] at hfalse
      simp at hfalse

theorem assign_some_parts {b : Blocks} {e : Entry} {ty : MonoType} {v : Nat} {b' : Blocks}
    (h : b.assign e ty = some (v, b')) :
    v = b.ventries.length ∧
    ∃ bb, b.blocks[b.current]? = some bb ∧
      b'.ventries.length = b.ventries.length + 1 ∧
      b'.blocks = b.blocks.set b.current
        { bb with offset := match bb.offset with
                            | none => some (v, v + 1)
                            | some (st, en) => some (st, en + 1) } := by
  unfold Blocks.assign at h
  simp only at h
  split at h
  · cases h
  · split at h
    · cases h
    · rename_i bb hg
      split at h
      · cases h
      · split at h
        · cases h
          refine ⟨rfl, bb, hg, by simp, rfl⟩
        · cases h

theorem inv4_assign {b : Blocks} {e : Entry} {ty : MonoType} {v : Nat} {b' : Blocks}
    (hinv : Inv4 b) (hpop : populated_above b = false)
    (h : b.assign e ty = some (v, b')) : Inv4 b' := by
  obtain ⟨hv, bb, hg, hlen, hblocks⟩ := assign_some_parts h
  obtain ⟨hA, hB, hC⟩ := hinv
  have habove := not_populated_above hpop
  have hcur : b.current < b.blocks.length := (List.getElem?_eq_some.mp hg).1
  have hbr_ne : ∀ i, i ≠ b.current → block_range b' i = block_range b i := by
    intro i hi
    unfold block_range
    rw [hblocks, List.getElem?_set_ne (fun he => hi he.symm)]
  have hbr_cur : block_range b' b.current =
      (match bb.offset with
       | none => some (v, v + 1)
       | some (st, en) => some (st, en + 1)) := by
    unfold block_range
    rw [hblocks, List.getElem?_set_self hcur]
  have hbcur : block_range b b.current = bb.offset := by
    unfold block_range
    rw [hg]
  cases hoff : bb.offset with
  | none =>
    rw [hoff] at hbr_cur
    refine ⟨?_, ?_, ?_⟩
    · intro i st en hi
      rw [hlen]
      by_cases hic : i = b.current
      · subst hic
        rw [hbr_cur] at hi
        cases hi
        omega
      · rw [hbr_ne i hic] at hi
        have := hA i st en hi
        omega
    · intro i j sti eni stj enj hij hi hj
      by_cases hic : i = b.current
      · subst hic
        rw [hbr_ne j (by omega)] at hj
        rw [habove j hij] at hj
        cases hj
      · rw [hbr_ne i hic] at hi
        by_cases hjc : j = b.current
        · subst hjc
          rw [hbr_cur] at hj
          cases hj
          have := hA i sti eni hi
          omega
        · rw [hbr_ne j hjc] at hj
          exact hB i j sti eni stj enj hij hi hj
    · intro i st en hi hab
      rw [hlen]
      by_cases hic : i = b.current
      · subst hic
        rw [hbr_cur] at hi
        cases hi
        omega
      · rcases Nat.lt_trichotomy i b.current with hlt | heq | hgt
        · have := hab b.current hlt
          rw [hbr_cur] at this
          cases this
        · exact absurd heq hic
        · rw [hbr_ne i hic] at hi
          rw [habove i hgt] at hi
          cases hi
  | some p =>
    obtain ⟨st₀, en₀⟩ := p
    rw [hoff] at hbr_cur
    rw [hoff] at hbcur
    have hen : en₀ = b.ventries.length := by
      refine hC b.current st₀ en₀ hbcur ?_
      intro j hj
      exact habove j hj
    refine ⟨?_, ?_, ?_⟩
    · intro i st en hi
      rw [hlen]
      by_cases hic : i = b.current
      · subst hic
        rw [hbr_cur] at hi
        cases hi
        have := hA b.current st₀ en₀ hbcur
        omega
      · rw [hbr_ne i hic] at hi
        have := hA i st en hi
        omega
    · intro i j sti eni stj enj hij hi hj
      by_cases hic : i = b.current
      · subst hic
        rw [hbr_ne j (by omega)] at hj
        rw [habove j hij] at hj
        cases hj
      · rw [hbr_ne i hic] at hi
        by_cases hjc : j = b.current
        · subst hjc
          rw [hbr_cur] at hj
          cases hj
          exact hB i b.current sti eni st₀ en₀ hij hi hbcur
        · rw [hbr_ne j hjc] at hj
          exact hB i j sti eni stj enj hij hi hj
    · intro i st en hi hab
      rw [hlen]
      by_cases hic : i = b.current
      · subst hic
        rw [hbr_cur] at hi
        cases hi
        omega
      · rcases Nat.lt_trichotomy i b.current with hlt | heq | hgt
        · have := hab b.current hlt
          rw [hbr_cur] at this
          cases this
        · exact absurd heq hic
        · rw [hbr_ne i hic] at hi
          rw [habove i hgt] at hi
          cases hi

theorem inv4_step {b b' : Blocks} {op : SsaOp} (hinv : Inv4 b)
    (h : run_op_in_order b op = some b') : Inv4 b' := by
  cases op with
  | newBlock =>
    have h2 : Option.map (fun p => p.2) b.new_block = some b' := h
    unfold Blocks.new_block at h2
    split at h2
    · simp at h2
    · simp only [Option.map] at h2
      cases h2
      exact inv4_congr (block_range_append rfl) rfl hinv
  | addBlockParam blk ty =>
    have h2 : Option.map (fun p => p.2) (b.add_block_param blk ty) = some b' := h
    unfold Blocks.add_block_param at h2
    split at h2
    · simp at h2
    · rename_i bb hg
      simp only [Option.map] at h2
      cases h2
      exact inv4_congr (block_range_set hg rfl) rfl hinv
  | switchToBlock blk =>
    have h2 : some (b.switch_to_block blk) = some b' := h
    cases h2
    exact inv4_congr (fun i => rfl) rfl hinv
  | assignOp e ty =>
    have h2 : (if populated_above b = true then none
        else Option.map (fun p => p.2) (b.assign e ty)) = some b' := h
    by_cases hpop : populated_above b = true
    · rw [if_pos hpop] at h2
      cases h2
    · rw [if_neg hpop] at h2
      cases ha : b.assign e ty with
      | none => simp [ha] at h2
      | some p =>
        obtain ⟨v, b₂⟩ := p
        simp only [ha, Option.map] at h2
        cases h2
        exact inv4_assign hinv (by simpa using hpop) ha
  | setTailOp fl =>
    have h2 : b.set_tail fl = some b' := h
    unfold Blocks.set_tail at h2
    split at h2
    · cases h2
    · rename_i bb hg
      split at h2
      · cases h2
        exact inv4_congr (block_range_set hg rfl) rfl hinv
      · cases h2

theorem inv4_run : ∀ (ops : List SsaOp) (b b' : Blocks), Inv4 b →
    run_ops_in_order b ops = some b' → Inv4 b' := by
  intro ops
  induction ops with
  | nil =>
    intro b b' hinv h
    cases h
    exact hinv
  | cons op rest ih =>
    intro b b' hinv h
    unfold run_ops_in_order at h
    cases ho : run_op_in_order b op with
    | none => rw [ho] at h; cases h
    | some b₁ =>
      rw [ho] at h
      exact ih b₁ b' (inv4_step hinv ho) h

theorem inv4_init (params : List MonoType) : Inv4 (Blocks.new params) := by
  have hnone : ∀ i, block_range (Blocks.new params) i = none := by
    intro i
    unfold block_range Blocks.new
    cases i with
    | zero => rfl
    | succ n => rfl
  refine ⟨?_, ?_, ?_⟩
  · intro i st en hi
    rw [hnone i] at hi
    cases hi
  · intro i j sti eni stj enj hij hi hj
    rw [hnone i] at hi
    cases hi
  · intro i st en hi hab
    rw [hnone i] at hi
    cases hi

theorem range_of_inv4 {st : Blocks} (hinv : Inv4 st) : ssa_range_property st := by
  obtain ⟨hA, hB, _⟩ := hinv
  intro i j a c hij ha hc
  unfold Blocks.entries at ha hc
  cases hgi : st.blocks[i]? with
  | none => rw [hgi] at ha; simp at ha
  | some bbi =>
    cases hgj : st.blocks[j]? with
    | none => rw [hgj] at hc; simp at hc
    | some bbj =>
      rw [hgi] at ha
      rw [hgj] at hc
      simp only at ha hc
      cases hoi : bbi.offset with
      | none => rw [hoi] at ha; simp at ha
      | some pi =>
        obtain ⟨sti, eni⟩ := pi
        cases hoj : bbj.offset with
        | none => rw [hoj] at hc; simp at hc
        | some pj =>
          obtain ⟨stj, enj⟩ := pj
          rw [hoi] at ha
          rw [hoj] at hc
          simp only [List.mem_range'] at ha hc
          obtain ⟨ka, hka, hae⟩ := ha
          obtain ⟨kc, hkc, hce⟩ := hc
          have hbi : block_range st i = some (sti, eni) := by
            unfold block_range
            simp only [hgi]
            exact hoi
          have hbj : block_range st j = some (stj, enj) := by
            unfold block_range
            simp only [hgj]
            exact hoj
          have h1 := hA i sti eni hbi
          have h2 := hB i j sti eni stj enj hij hbi hbj
          omega

/-- C4 (amended): the global block-range ordering is NOT maintained by the
builder itself — `Blocks::assign` checks only the adjacent next block, and
only once that block is populated — but it does hold for every function
built under the in-order population discipline (never append a value while
some later block is already populated), which is the discipline the
lowering follows.  Each successful `assign` also hands out the next global
id, so ids are strictly increasing within a function, and each block's
owned ids are exactly the contiguous range its offset records. -/
theorem C4_block_id_ranges :
    (∀ params ops st, run_ops_in_order (Blocks.new params) ops = some st →
       ssa_range_property st) ∧
    (∀ (b : Blocks) e ty v b', b.assign e ty = some (v, b') →
       v = b.ventries.length ∧ b'.ventries.length = b.ventries.length + 1) ∧
    (∀ (st : Blocks) i bb sti eni, st.blocks[i]? = some bb →
       bb.offset = some (sti, eni) → st.entries i = List.range' sti (eni - sti)) := by
  refine ⟨?_, ?_, ?_⟩
  · intro params ops st h
    exact range_of_inv4 (inv4_run ops _ st (inv4_init params) h)
  · intro b e ty v b' h
    obtain ⟨hv, bb, hg, hlen, hblocks⟩ := assign_some_parts h
    exact ⟨hv, hlen⟩
  · intro st i bb sti eni hg hoff
    unfold Blocks.entries
    simp only [hg]
    rw [hoff]

/-- C4 counterexample to the claim as written: populating block 2, then
going back and populating block 0 (legal for the builder, since block 1 in
between is empty and `assign` checks only the adjacent block) yields a
function whose block 0 owns id 1 while block 2 owns id 0 — for blocks
0 < 2 the owned ids are not ordered. -/
theorem C4_out_of_order_cex :
    (run_ops (Blocks.new []) cex_ops).isSome = true ∧
    c4_st.entries 0 = [1] ∧ c4_st.entries 1 = [] ∧ c4_st.entries 2 = [0] ∧
    ¬ ssa_range_property c4_st := by
  refine ⟨rfl, by decide, by decide, by decide, ?_⟩
  intro h
  have := h 0 2 1 0 (by decide) (by decide) (by decide)
  exact absurd this (by decide)

/-- C4 witness: a concrete disciplined build (block 0 then block 1)
satisfies the global range ordering. -/
theorem C4_block_id_ranges_witness :
    ssa_range_property c4_ok_st :=
  C4_block_id_ranges.1 [] c4_ok_ops c4_ok_st (by rfl)

end LuminaLir
